import Mathlib

/-!
Verification development for the task-list application: a shallow embedding of
the History & Mutation Engine (`src/db/history.ts`, `src/db/actions.ts`) and the
View Builder (`TaskTree` component), together with theorems about the behaviour
of the embedded operations.

The persistent store (a Firestore collection of task documents keyed by task id)
is modelled as a `List Task`; document ids are unique in Firestore, so theorems
assume `Nodup` of the id projection where the code relies on it.
-/

namespace Todo

/-- A task record, mirroring the `Task` interface of `db.ts` (networked variant,
with `sectionOrder`/`isFocused`/`focusOrder` and the `userId` field that
`actions.addTask` writes).  The optional numeric fields are modelled as total
`Int` fields: the code coalesces an absent value with `|| 0` wherever it reads
them.  `dueDate` is a `YYYY-MM-DD` string or absent. -/
structure Task where
  id : String
  parentId : String
  text : String
  notes : Option String
  completed : Bool
  dueDate : Option String
  tags : List String
  order : Int
  sectionOrder : Int
  isFocused : Bool
  focusOrder : Int
  createdAt : Int
  userId : String
deriving Repr, DecidableEq

/-- A `Partial<Task>` value: every field optional.  `applyPatch` below is the
merge performed by Firestore's `updateDoc`. -/
structure TaskPatch where
  id : Option String := none
  parentId : Option String := none
  text : Option String := none
  notes : Option (Option String) := none
  completed : Option Bool := none
  dueDate : Option (Option String) := none
  tags : Option (List String) := none
  order : Option Int := none
  sectionOrder : Option Int := none
  isFocused : Option Bool := none
  focusOrder : Option Int := none
  createdAt : Option Int := none
  userId : Option String := none
deriving Repr, DecidableEq

/-- Merge a partial field map into a task (Firestore `updateDoc` semantics). -/
def applyPatch (t : Task) (p : TaskPatch) : Task :=
  { id := p.id.getD t.id
    parentId := p.parentId.getD t.parentId
    text := p.text.getD t.text
    notes := p.notes.getD t.notes
    completed := p.completed.getD t.completed
    dueDate := p.dueDate.getD t.dueDate
    tags := p.tags.getD t.tags
    order := p.order.getD t.order
    sectionOrder := p.sectionOrder.getD t.sectionOrder
    isFocused := p.isFocused.getD t.isFocused
    focusOrder := p.focusOrder.getD t.focusOrder
    createdAt := p.createdAt.getD t.createdAt
    userId := p.userId.getD t.userId }

/-- The snapshot of the current values of exactly the keys present in a patch,
as computed by `updateTask` (`for key of Object.keys(updates)`). -/
def snapshotForPatch (t : Task) (p : TaskPatch) : TaskPatch :=
  { id := p.id.map (fun _ => t.id)
    parentId := p.parentId.map (fun _ => t.parentId)
    text := p.text.map (fun _ => t.text)
    notes := p.notes.map (fun _ => t.notes)
    completed := p.completed.map (fun _ => t.completed)
    dueDate := p.dueDate.map (fun _ => t.dueDate)
    tags := p.tags.map (fun _ => t.tags)
    order := p.order.map (fun _ => t.order)
    sectionOrder := p.sectionOrder.map (fun _ => t.sectionOrder)
    isFocused := p.isFocused.map (fun _ => t.isFocused)
    focusOrder := p.focusOrder.map (fun _ => t.focusOrder)
    createdAt := p.createdAt.map (fun _ => t.createdAt)
    userId := p.userId.map (fun _ => t.userId) }

/-- An entry of the undo/redo log (`Operation` in `history.ts`).  The TS type is
a single interface with optional fields; following the access patterns of
`applyInverse`/`applyForward` it is a tagged union over the four `type` values,
each carrying the fields the code reads for that tag. -/
inductive Operation where
  | ADD (taskId : String) (taskSnapshot : Task)
  | DELETE (taskId : String) (taskSnapshot : Task)
  | UPDATE (taskId : String) (prevUpdateSnapshot newUpdateSnapshot : TaskPatch)
  | BATCH (batchOperations : List Operation)
deriving Repr

/-- `getDoc` by id: Firestore returns the (unique) document with that id. -/
def getTask (store : List Task) (id : String) : Option Task :=
  store.find? (fun t => t.id = id)

/-- `setDoc`: full overwrite, creates the document if absent. -/
def setTask (store : List Task) (t : Task) : List Task :=
  if store.any (fun u => u.id = t.id) then
    store.map (fun u => if u.id = t.id then t else u)
  else
    store ++ [t]

/-- `deleteDoc`: removes the document with the given id (no error if absent). -/
def deleteTaskDoc (store : List Task) (id : String) : List Task :=
  store.filter (fun t => ¬ t.id = id)

/-- `updateDoc`: merge a partial field map into the document with the given id;
Firestore rejects the call when the document does not exist, modelled as
`none`. -/
def updateTaskDoc (store : List Task) (id : String) (p : TaskPatch) :
    Option (List Task) :=
  if store.any (fun u => u.id = id) then
    some (store.map (fun u => if u.id = id then applyPatch u p else u))
  else
    none

namespace History

/-- `MAX_HISTORY` in `history.ts`. -/
def MAX_HISTORY : Nat := 50

/-- The two stacks of the `HistoryManager` (listeners carry no state that the
claims depend on).  The top of each stack is the *last* list element, matching
the TS `Array` `push`/`pop` usage. -/
structure State where
  undoStack : List Operation
  redoStack : List Operation
deriving Repr

/-- `push`: append to the undo stack, evict the oldest entry (`shift`) once the
length exceeds `MAX_HISTORY`, and clear the redo stack. -/
def push (h : State) (op : Operation) : State :=
  let u := h.undoStack ++ [op]
  { undoStack := if MAX_HISTORY < u.length then u.drop 1 else u
    redoStack := [] }

mutual

/-- `applyInverse`: undo a single operation against the store.  A failing store
call (update of an absent document) aborts the remaining sub-steps, modelled by
`Option` propagation. -/
def applyInverse : Operation → List Task → Option (List Task)
  | .ADD taskId _, s => some (deleteTaskDoc s taskId)
  | .DELETE _ snap, s => some (setTask s snap)
  | .UPDATE taskId prevSnap _, s => updateTaskDoc s taskId prevSnap
  | .BATCH ops, s => applyInverseRev ops s

/-- Undo a batch in reverse order (`for i = length-1 downto 0`). -/
def applyInverseRev : List Operation → List Task → Option (List Task)
  | [], s => some s
  | op :: rest, s => do
      let s' ← applyInverseRev rest s
      applyInverse op s'

end

mutual

/-- `applyForward`: redo a single operation against the store. -/
def applyForward : Operation → List Task → Option (List Task)
  | .ADD _ snap, s => some (setTask s snap)
  | .DELETE taskId _, s => some (deleteTaskDoc s taskId)
  | .UPDATE taskId _ newSnap, s => updateTaskDoc s taskId newSnap
  | .BATCH ops, s => applyForwardFwd ops s

/-- Redo a batch in original order. -/
def applyForwardFwd : List Operation → List Task → Option (List Task)
  | [], s => some s
  | op :: rest, s => do
      let s' ← applyForward op s
      applyForwardFwd rest s'

end

/-- `undo()`: no-op on an empty undo stack; otherwise pop the top operation,
apply its inverse to the store and push it onto the redo stack.  A store
failure during the inverse propagates (`none`). -/
def undo (h : State) (s : List Task) : Option (State × List Task) :=
  match h.undoStack.getLast? with
  | none => some (h, s)
  | some op => do
      let s' ← applyInverse op s
      some (⟨h.undoStack.dropLast, h.redoStack ++ [op]⟩, s')

/-- `redo()`: no-op on an empty redo stack; otherwise pop the top operation,
apply its forward effect and push it back onto the undo stack. -/
def redo (h : State) (s : List Task) : Option (State × List Task) :=
  match h.redoStack.getLast? with
  | none => some (h, s)
  | some op => do
      let s' ← applyForward op s
      some (⟨h.undoStack ++ [op], h.redoStack.dropLast⟩, s')

end History

/-! ## Mutation Engine (`actions.ts`)

Each action reads the store, accumulates a Firestore write batch, and pushes an
`Operation` to the history manager.  The asynchronous effects are embedded by
explicit state passing; `Date.now()` and `crypto.randomUUID()` become the
parameters `now`/`newId`, and the authenticated uid the parameter `uid`.  The
order in which the two externally visible effects of one action occur — the
store write (batch commit / `updateDoc`) and the `history.push` — is recorded
in an event list, in program order. -/

/-- An externally visible effect of a Mutation Engine action. -/
inductive Ev where
  | storeWrite
  | historyPush
deriving Repr, DecidableEq

/-- One write of a Firestore write batch. -/
inductive StoreWrite where
  | set (t : Task)
  | upd (id : String) (p : TaskPatch)
  | del (id : String)
deriving Repr

/-- Apply one batched write to the store.  (A batched `update` of an absent
document would fail the whole commit in Firestore; the actions below only ever
update documents they just read, so that case is unreachable and modelled as a
no-op.) -/
def applyWrite (s : List Task) : StoreWrite → List Task
  | .set t => setTask s t
  | .upd id p => s.map (fun u => if u.id = id then applyPatch u p else u)
  | .del id => deleteTaskDoc s id

/-- `writeBatch(...).commit()`: apply the accumulated writes. -/
def commitBatch (s : List Task) (ws : List StoreWrite) : List Task :=
  ws.foldl applyWrite s

namespace actions

/-- Result of an action: new store, new history state, and the program-order
list of visible effects. -/
structure ActResult where
  store : List Task
  hist : History.State
  events : List Ev

/-- Result of `addTask`, which additionally returns the created task. -/
structure AddResult where
  store : List Task
  hist : History.State
  events : List Ev
  newTask : Task

/-- `addTask(text, parentId, tags, dueDate, insertAfterOrder)`: find the
siblings of `parentId`; with `insertAfterOrder = k` shift every sibling whose
`order ≥ k+1` up by one (each shift one `UPDATE` sub-operation) and create the
new task at `order = k+1`, otherwise append at `max(0, orders...) + 1`; commit
the batch, then push one `BATCH` operation. -/
def addTask (store : List Task) (h : History.State) (text : String)
    (parentId : String) (tags : List String) (dueDate : Option String)
    (insertAfterOrder : Option Int) (newId : String) (now : Int)
    (uid : String) : AddResult :=
  let siblings := store.filter (fun t => t.parentId = parentId)
  let orderToUse : Int :=
    match insertAfterOrder with
    | some k => k + 1
    | none => (siblings.map (fun s : Task => s.order)).foldl max 0 + 1
  let siblingsToShift : List Task :=
    match insertAfterOrder with
    | some _ => siblings.filter (fun s : Task => orderToUse ≤ s.order)
    | none => []
  let shiftOps := siblingsToShift.map (fun s =>
    Operation.UPDATE s.id { order := some s.order } { order := some (s.order + 1) })
  let shiftWrites := siblingsToShift.map (fun s =>
    StoreWrite.upd s.id { order := some (s.order + 1) })
  let newTask : Task :=
    { id := newId, parentId := parentId, text := text, notes := some "",
      completed := false, dueDate := dueDate, tags := tags, order := orderToUse,
      sectionOrder := now, isFocused := false, focusOrder := 0,
      createdAt := now, userId := uid }
  let batchOps := shiftOps ++ [Operation.ADD newTask.id newTask]
  let store1 := commitBatch store (shiftWrites ++ [StoreWrite.set newTask])
  let h1 := History.push h (.BATCH batchOps)
  ⟨store1, h1, [.storeWrite, .historyPush], newTask⟩

/-- `updateTask(id, updates)`: no-op if the task is absent; otherwise snapshot
the current values of the updated keys, push an `UPDATE` operation, then write
the updates.  Note the push happens *before* the `updateDoc`. -/
def updateTask (store : List Task) (h : History.State) (id : String)
    (updates : TaskPatch) : ActResult :=
  match getTask store id with
  | none => ⟨store, h, []⟩
  | some existing =>
    let prevSnapshot := snapshotForPatch existing updates
    let h1 := History.push h (.UPDATE id prevSnapshot updates)
    let store1 := store.map (fun u => if u.id = id then applyPatch u updates else u)
    ⟨store1, h1, [.historyPush, .storeWrite]⟩

/-- `toggleTaskCompletion(id, completed)`: sugar over `updateTask`. -/
def toggleTaskCompletion (store : List Task) (h : History.State) (id : String)
    (completed : Bool) : ActResult :=
  updateTask store h id { completed := some completed }

/-- `toggleFocus(id, isFocused)`: sugar over `updateTask`; turning focus on
also stamps `focusOrder` with the current time. -/
def toggleFocus (store : List Task) (h : History.State) (id : String)
    (isFocused : Bool) (now : Int) : ActResult :=
  updateTask store h id
    (if isFocused then { isFocused := some isFocused, focusOrder := some now }
     else { isFocused := some isFocused })

/-- The ids of the children of `pid` (`query(where parentId == pid)`). -/
def childIds (store : List Task) (pid : String) : List String :=
  (store.filter (fun t => t.parentId = pid)).map (fun t => t.id)

/-- The breadth-first collection loop of `deleteTask`: `toDeleteIds` starts as
`[id]` and an index walks it, appending the children of each visited id.  The
source loop has no bound; the embedding consumes one unit of fuel per
iteration and `deleteTask` provides `store.length + 2` units, which theorem
`C9` shows is never exhausted on acyclic stores.  `none` models
non-termination. -/
def bfsCollect (store : List Task) : Nat → List String → Nat → Option (List String)
  | 0, _, _ => none
  | fuel+1, acc, idx =>
    if h : idx < acc.length then
      bfsCollect store fuel (acc ++ childIds store (acc.get ⟨idx, h⟩)) (idx + 1)
    else
      some acc

/-- `deleteTask(id)`: collect `id` and its transitive descendants breadth
first, snapshot each collected task that exists, push one `BATCH` of per-task
`DELETE` operations, then commit the deletions.  Note the push happens
*before* the commit. -/
def deleteTask (store : List Task) (h : History.State) (id : String) :
    Option ActResult :=
  match bfsCollect store (store.length + 2) [id] 0 with
  | none => none
  | some toDeleteIds =>
    let snaps := toDeleteIds.filterMap (fun did => getTask store did)
    let batchOps := snaps.map (fun t => Operation.DELETE t.id t)
    let delWrites := snaps.map (fun t => StoreWrite.del t.id)
    let h1 := History.push h (.BATCH batchOps)
    some ⟨commitBatch store delWrites, h1, [.historyPush, .storeWrite]⟩

/-- `Array.prototype.splice(i, 0, x)`: insert at index `i`, clamped to the
array length. -/
def spliceAt (l : List Task) (i : Nat) (x : Task) : List Task :=
  l.take i ++ x :: l.drop i

/-- `reorderSiblings(draggedId, newParentId, dropIndex)`: fetch the children of
`newParentId` without the dragged task, sort them by `order`, splice the
dragged task in at `dropIndex`, and reassign `order = 0..n-1` densely,
recording an `UPDATE` for the parent change (if any) and for each task whose
`order` actually changed; everything in one `BATCH`.  (JS `Array.sort` with
the numeric comparator is a stable ascending sort, modelled by
`insertionSort`.) -/
def reorderSiblings (store : List Task) (h : History.State)
    (draggedId newParentId : String) (dropIndex : Nat) : ActResult :=
  match getTask store draggedId with
  | none => ⟨store, h, []⟩
  | some draggedTask =>
    let originalParent := draggedTask.parentId
    let originalOrder := draggedTask.order
    let targetSiblings := store.filter (fun t => t.parentId = newParentId)
    let listToReorder := List.insertionSort (fun a b => a.order ≤ b.order)
      (targetSiblings.filter (fun t => ¬ t.id = draggedId))
    let spliced := spliceAt listToReorder dropIndex draggedTask
    let parentOps : List Operation :=
      if ¬ originalParent = newParentId then
        [.UPDATE draggedId { parentId := some originalParent }
          { parentId := some newParentId }]
      else []
    let parentWrites : List StoreWrite :=
      if ¬ originalParent = newParentId then
        [.upd draggedId { parentId := some newParentId }]
      else []
    let orderPairs := spliced.enum.filterMap (fun p =>
      if p.2.id = draggedId then
        if ¬ originalOrder = (p.1 : Int) then
          some (Operation.UPDATE p.2.id { order := some originalOrder }
                  { order := some (p.1 : Int) },
                StoreWrite.upd p.2.id { order := some (p.1 : Int) })
        else none
      else
        if ¬ p.2.order = (p.1 : Int) then
          some (Operation.UPDATE p.2.id { order := some p.2.order }
                  { order := some (p.1 : Int) },
                StoreWrite.upd p.2.id { order := some (p.1 : Int) })
        else none)
    let batchOps := parentOps ++ orderPairs.map Prod.fst
    let writes := parentWrites ++ orderPairs.map Prod.snd
    if batchOps.isEmpty then ⟨store, h, []⟩
    else ⟨commitBatch store writes, History.push h (.BATCH batchOps),
          [.historyPush, .storeWrite]⟩

/-- JS truthiness of a nullable string (`null` and `""` are falsy). -/
def optStrTruthy (s : Option String) : Bool :=
  match s with
  | none => false
  | some v => ¬ v = ""

/-- `reorderInSection(draggedId, targetDate, dropIndex)`: same splice/reassign
algorithm over the group of tasks sharing `targetDate` (or lacking a due date
when `targetDate` is falsy), reassigning `sectionOrder`. -/
def reorderInSection (store : List Task) (h : History.State)
    (draggedId : String) (targetDate : Option String) (dropIndex : Nat) :
    ActResult :=
  match getTask store draggedId with
  | none => ⟨store, h, []⟩
  | some draggedTask =>
    let targetTasks :=
      if optStrTruthy targetDate then store.filter (fun t => t.dueDate = targetDate)
      else store.filter (fun t => ¬ optStrTruthy t.dueDate)
    let listToReorder := List.insertionSort (fun a b => a.sectionOrder ≤ b.sectionOrder)
      (targetTasks.filter (fun t => ¬ t.id = draggedId))
    let spliced := spliceAt listToReorder dropIndex draggedTask
    let orderPairs := spliced.enum.filterMap (fun p =>
      if ¬ p.2.sectionOrder = (p.1 : Int) then
        some (Operation.UPDATE p.2.id { sectionOrder := some p.2.sectionOrder }
                { sectionOrder := some (p.1 : Int) },
              StoreWrite.upd p.2.id { sectionOrder := some (p.1 : Int) })
      else none)
    let batchOps := orderPairs.map Prod.fst
    let writes := orderPairs.map Prod.snd
    if batchOps.isEmpty then ⟨store, h, []⟩
    else ⟨commitBatch store writes, History.push h (.BATCH batchOps),
          [.historyPush, .storeWrite]⟩

/-- `reorderInFocus(draggedId, dropIndex)`: same splice/reassign algorithm over
the tasks with `isFocused = true`, reassigning `focusOrder`. -/
def reorderInFocus (store : List Task) (h : History.State)
    (draggedId : String) (dropIndex : Nat) : ActResult :=
  match getTask store draggedId with
  | none => ⟨store, h, []⟩
  | some draggedTask =>
    let targetTasks := store.filter (fun t => t.isFocused = true)
    let listToReorder := List.insertionSort (fun a b => a.focusOrder ≤ b.focusOrder)
      (targetTasks.filter (fun t => ¬ t.id = draggedId))
    let spliced := spliceAt listToReorder dropIndex draggedTask
    let orderPairs := spliced.enum.filterMap (fun p =>
      if ¬ p.2.focusOrder = (p.1 : Int) then
        some (Operation.UPDATE p.2.id { focusOrder := some p.2.focusOrder }
                { focusOrder := some (p.1 : Int) },
              StoreWrite.upd p.2.id { focusOrder := some (p.1 : Int) })
      else none)
    let batchOps := orderPairs.map Prod.fst
    let writes := orderPairs.map Prod.snd
    if batchOps.isEmpty then ⟨store, h, []⟩
    else ⟨commitBatch store writes, History.push h (.BATCH batchOps),
          [.historyPush, .storeWrite]⟩

end actions

/-! ## View Builder (`TaskTree` component)

`buildStrictTreeFromMatch` and the standard full-tree assembly, plus the
inbox grouping.  The JS code builds nodes in a `Map` and pushes each node into
its parent's `children` (or into `roots`); the embedding computes the same
forest recursively.  Because the source never recurses (it relies on object
aliasing), it produces a well-founded forest only when the parent links among
kept tasks are acyclic; the recursive embedding carries fuel (`kept.length`
suffices on acyclic inputs, and on a cyclic input the roots list is empty in
both the source and the embedding). -/

/-- A node of the render tree (`TreeNode` in `TaskTree`). -/
inductive TreeNode where
  | mk (task : Task) (children : List TreeNode)
deriving Repr

/-- The task of a node. -/
def TreeNode.task : TreeNode → Task
  | .mk t _ => t

/-- The children of a node. -/
def TreeNode.children : TreeNode → List TreeNode
  | .mk _ c => c

/-- All tasks of a forest, in preorder. -/
def flattenForest : List TreeNode → List Task
  | [] => []
  | .mk t c :: rest => t :: (flattenForest c ++ flattenForest rest)

/-- All nodes of a forest, in preorder. -/
def allNodes : List TreeNode → List TreeNode
  | [] => []
  | .mk t c :: rest => .mk t c :: (allNodes c ++ allNodes rest)

/-- Step 1 of `buildStrictTreeFromMatch`: the ids of the tasks that directly
satisfy the predicate. -/
def matchingIds (tasks : List Task) (f : Task → Bool) : List String :=
  (tasks.filter f).map (fun t => t.id)

/-- The hoisting step: if a task's parent is not itself a match, re-parent the
task to the synthetic root. -/
def hoist (mids : List String) (t : Task) : Task :=
  if mids.contains t.parentId then t else { t with parentId := "root" }

/-- Step 2: keep only the true matches, hoisted. -/
def keptTasks (tasks : List Task) (f : Task → Bool) : List Task :=
  (tasks.filter (fun t => (matchingIds tasks f).contains t.id)).map
    (hoist (matchingIds tasks f))

/-- A node becomes a root when its (possibly hoisted) parent id is `"root"` or
names no node of the working set. -/
def isRootNode (kept : List Task) (t : Task) : Bool :=
  t.parentId = "root" ∨ ¬ (kept.map (fun u => u.id)).contains t.parentId

/-- The tasks that get pushed into the children of the node of `pid`. -/
def childNodeTasks (kept : List Task) (pid : String) : List Task :=
  kept.filter (fun t => t.parentId = pid ∧ ¬ isRootNode kept t)

/-- Build the node of a task, recursively attaching and sorting its children
by `order` (`sortChildren`).  Fuel-indexed; see the section comment. -/
def buildNode (kept : List Task) : Nat → Task → TreeNode
  | 0, t => .mk t []
  | fuel+1, t =>
    .mk t (List.insertionSort (fun a b => a.task.order ≤ b.task.order)
      ((childNodeTasks kept t.id).map (buildNode kept fuel)))

/-- `buildStrictTreeFromMatch(allTasks, matchFn)`: keep exactly the matches,
hoist matches whose parent does not match to the root, attach co-matching
children under their parents, sort roots by `sectionOrder` and children by
`order`. -/
def buildStrictTreeFromMatch (tasks : List Task) (f : Task → Bool) :
    List TreeNode :=
  let kept := keptTasks tasks f
  List.insertionSort (fun a b => a.task.sectionOrder ≤ b.task.sectionOrder)
    ((kept.filter (isRootNode kept)).map (buildNode kept kept.length))

/-- The standard (non-search) full tree: every task a node, attached under its
parent when the parent exists, else a root; roots and children sorted by
`order`. -/
def buildFullTree (tasks : List Task) : List TreeNode :=
  List.insertionSort (fun a b => a.task.order ≤ b.task.order)
    ((tasks.filter (isRootNode tasks)).map (buildNode tasks tasks.length))

/-! ### Local dates

`dueDate` strings are parsed by `parseLocal` into a `Date` built from the
three numeric components in the local timezone.  A point in local time is
modelled as a calendar date (year, zero-based month index, day — the raw
constructor arguments of `new Date(y, m, d)`) plus the milliseconds elapsed
within that day; the `date-fns` comparators are lexicographic on that
representation.  The month/day overflow normalisation of the JS `Date`
constructor is not modelled: all `dueDate` values considered are well-formed
`YYYY-MM-DD` strings. -/

/-- A local calendar date: year, zero-based month index, day of month. -/
structure LocalDate where
  year : Nat
  monthIdx : Nat
  day : Nat
deriving Repr, DecidableEq

/-- Calendar order on local dates. -/
def LocalDate.ltb (a b : LocalDate) : Bool :=
  a.year < b.year ∨ (a.year = b.year ∧
    (a.monthIdx < b.monthIdx ∨ (a.monthIdx = b.monthIdx ∧ a.day < b.day)))

/-- A point in local time: a date and the milliseconds elapsed that day. -/
structure Instant where
  date : LocalDate
  msOfDay : Nat
deriving Repr, DecidableEq

/-- Temporal order on local instants. -/
def Instant.ltb (a b : Instant) : Bool :=
  LocalDate.ltb a.date b.date ∨ (a.date = b.date ∧ a.msOfDay < b.msOfDay)

/-- `date-fns` `isBefore`. -/
def isBefore (a b : Instant) : Bool := a.ltb b

/-- `date-fns` `isAfter`. -/
def isAfter (a b : Instant) : Bool := b.ltb a

/-- `date-fns` `startOfDay`. -/
def startOfDay (i : Instant) : Instant := ⟨i.date, 0⟩

/-- `date-fns` `endOfDay` (23:59:59.999). -/
def endOfDay (i : Instant) : Instant := ⟨i.date, 86399999⟩

/-- JS `parseInt(s, 10)` on a digit string: fold the leading decimal digits
(dates are well-formed, so the NaN case never arises). -/
def parseIntAux : List Char → Nat → Nat
  | [], acc => acc
  | ch :: rest, acc =>
    if 48 ≤ ch.toNat ∧ ch.toNat ≤ 57 then
      parseIntAux rest (acc * 10 + (ch.toNat - 48))
    else acc

/-- JS `parseInt(s, 10)` of a string. -/
def parseInt10 (s : String) : Nat := parseIntAux s.data 0

/-- Split a character list at every occurrence of the separator, returning the
current segment and the later segments. -/
def splitOnCharAux (c : Char) : List Char → List Char × List (List Char)
  | [] => ([], [])
  | a :: rest =>
    let r := splitOnCharAux c rest
    if a = c then ([], r.1 :: r.2) else (a :: r.1, r.2)

/-- JS `String.split(sep)` for a one-character separator. -/
def splitChar (c : Char) (s : String) : List String :=
  ((splitOnCharAux c s.data).1 :: (splitOnCharAux c s.data).2).map String.mk

/-- `parseLocal`: split on `"-"`, `parseInt` the three components, and build a
local `Date` at midnight of that day (`new Date(y, m-1, d)`). -/
def parseLocal (s : String) : Instant :=
  let parts := splitChar (Char.ofNat 45) s
  ⟨⟨parseInt10 (parts.getD 0 ""),
    parseInt10 (parts.getD 1 "") - 1,
    parseInt10 (parts.getD 2 "")⟩, 0⟩

/-- The `past` predicate of the inbox grouping. -/
def isPastPred (now : Instant) (t : Task) : Bool :=
  match t.dueDate with
  | none => false
  | some d => if d = "" then false
    else isBefore (parseLocal d) (startOfDay now)

/-- The `today` predicate of the inbox grouping. -/
def isTodayPred (now : Instant) (t : Task) : Bool :=
  match t.dueDate with
  | none => false
  | some d =>
    if d = "" then false
    else ¬ isBefore (parseLocal d) (startOfDay now) ∧
      ¬ isAfter (parseLocal d) (endOfDay now)

/-- The `upcoming` predicate of the inbox grouping. -/
def isUpcomingPred (now : Instant) (t : Task) : Bool :=
  match t.dueDate with
  | none => false
  | some d => if d = "" then false
    else isAfter (parseLocal d) (endOfDay now)

/-- The four bucket forests of the inbox view. -/
structure InboxGroups where
  past : List TreeNode
  today : List TreeNode
  upcoming : List TreeNode
  nodate : List TreeNode

/-- The inbox grouping (`isInbox && !searchQuery` path of `TaskTree`): `past`,
`today` and `upcoming` are strict-match forests over the date predicates;
`nodate` (displayed as "No Date / All") is assigned the standard full tree
`rootNodes` of *all* tasks. -/
def inboxGroups (tasks : List Task) (now : Instant) : InboxGroups :=
  { past := buildStrictTreeFromMatch tasks (isPastPred now)
    today := buildStrictTreeFromMatch tasks (isTodayPred now)
    upcoming := buildStrictTreeFromMatch tasks (isUpcomingPred now)
    nodate := buildFullTree tasks }

/-! ### Specification-level notions used in theorem statements -/

/-- `x` is `root` itself or a transitive descendant of `root` through the
`parentId` links of `store`. -/
inductive IsDesc (store : List Task) (root : String) : String → Prop
  | refl : IsDesc store root root
  | step {p : String} {t : Task} : IsDesc store root p → t ∈ store →
      t.parentId = p → IsDesc store root t.id

/-- A rank function witnessing that the `parentId` links of `tasks` are
acyclic (every task sits strictly above its parent, and above the synthetic
root): the standard finite characterisation of "the `parentId` references
form a forest". -/
def HasRank (tasks : List Task) (rk : String → Nat) : Prop :=
  ∀ t ∈ tasks, rk "root" < rk t.id ∧ rk t.parentId < rk t.id

/-- A downward chain of `childNodeTasks` links of length `k` from `r` to `u`
in the working set `kept`: the path by which the strict-tree builder reaches a
descendant from the root of its tree. -/
inductive DownChain (kept : List Task) : Task → Task → Nat → Prop
  | zero (u : Task) : DownChain kept u u 0
  | cons {r c u : Task} {k : Nat} (hc : c ∈ childNodeTasks kept r.id)
      (hch : DownChain kept c u k) : DownChain kept r u (k + 1)

/-- Some `historyPush` event occurs strictly before some `storeWrite` event in
an action's event list. -/
def PushBeforeWrite (evs : List Ev) : Prop :=
  ∃ i j, i < j ∧ evs.get? i = some Ev.historyPush ∧ evs.get? j = some Ev.storeWrite

/-- No `historyPush` event precedes any `storeWrite` event: the store writes
of the action complete before the operation is pushed. -/
def WritesBeforePush (evs : List Ev) : Prop := ¬ PushBeforeWrite evs

/-- A history-manager state reachable from the initial (empty-stacks) state by
`push`, successful `undo` and successful `redo` transitions. -/
inductive Reachable : History.State → Prop
  | init : Reachable ⟨[], []⟩
  | push {h : History.State} (op : Operation) : Reachable h →
      Reachable (History.push h op)
  | undo {h h' : History.State} {s s' : List Task} : Reachable h →
      History.undo h s = some (h', s') → Reachable h'
  | redo {h h' : History.State} {s s' : List Task} : Reachable h →
      History.redo h s = some (h', s') → Reachable h'

/-- Push a sequence of operations in order. -/
def pushAll (h : History.State) (ops : List Operation) : History.State :=
  ops.foldl History.push h

/-- A small concrete task, used by the witness instances: all fields other
than `id`, `parentId` and `order` are defaults. -/
def sampleTask (id pid : String) (ord : Int) : Task :=
  ⟨id, pid, id, none, false, none, [], ord, 0, false, 0, 0, "u"⟩

/-- A small concrete task with a due date, used by the witness instances. -/
def sampleDue (id pid : String) (d : Option String) : Task :=
  ⟨id, pid, id, none, false, d, [], 1, 0, false, 0, 0, "u"⟩

/-- Analysis helper for `reorderSiblings`: the keyed order patch generated for
one enumerated entry of the spliced sibling list (mirrors the loop body, with
the store write expressed as a key/patch pair). -/
def orderPatchEntry (draggedId : String) (origOrder : Int) (p : Nat × Task) :
    Option (String × TaskPatch) :=
  if p.2.id = draggedId then
    (if ¬ origOrder = (p.1 : Int) then
      some (p.2.id, { order := some ((p.1 : Int)) })
    else none)
  else
    (if ¬ p.2.order = (p.1 : Int) then
      some (p.2.id, { order := some ((p.1 : Int)) })
    else none)

/-! ## Helper lemmas -/

theorem mem_unique_of_nodup_ids {store : List Task}
    (hnd : (store.map (fun u => u.id)).Nodup) {t u : Task}
    (ht : t ∈ store) (hu : u ∈ store) (hid : u.id = t.id) : u = t :=
  List.inj_on_of_nodup_map hnd hu ht hid

theorem getTask_some_mem {store : List Task} {id : String} {t : Task}
    (h : getTask store id = some t) : t ∈ store ∧ t.id = id :=
  ⟨List.mem_of_find?_eq_some h, by simpa using List.find?_some h⟩

theorem getTask_eq_some_of_mem {store : List Task}
    (hnd : (store.map (fun u => u.id)).Nodup) {t : Task} (ht : t ∈ store) :
    getTask store t.id = some t := by
  induction store with
  | nil => cases ht
  | cons a l ih =>
    by_cases h : a.id = t.id
    · have ha : a = t := mem_unique_of_nodup_ids hnd ht (List.mem_cons_self a l) h
      subst ha
      simp [getTask]
    · have hmem : t ∈ l := by
        rcases List.mem_cons.mp ht with rfl | hm
        · exact absurd rfl h
        · exact hm
      simpa [getTask, h] using ih (by simpa using hnd.of_cons) hmem

theorem any_id_of_mem {store : List Task} {t : Task} (ht : t ∈ store) :
    store.any (fun u => u.id = t.id) = true :=
  List.any_eq_true.mpr ⟨t, ht, by simp⟩

theorem getTask_map_of_id_preserved (l : List Task) (pid : String)
    (f : Task → Task) (hf : ∀ u, (f u).id = u.id) :
    getTask (l.map f) pid = (getTask l pid).map f := by
  unfold getTask
  rw [List.find?_map]
  have hp : ((fun t : Task => decide (t.id = pid)) ∘ f) =
      (fun t : Task => decide (t.id = pid)) := by
    funext u
    simp [Function.comp, hf]
  rw [hp]

theorem applyPatch_id_of_none {p : TaskPatch} (hp : p.id = none) (t : Task) :
    (applyPatch t p).id = t.id := by
  simp [applyPatch, hp]

theorem push_redoStack (h : History.State) (op : Operation) :
    (History.push h op).redoStack = [] := rfl

theorem push_undoStack_getLast? (h : History.State) (op : Operation) :
    (History.push h op).undoStack.getLast? = some op := by
  unfold History.push
  by_cases hc : History.MAX_HISTORY < (h.undoStack ++ [op]).length
  · have hlen : 1 ≤ h.undoStack.length := by
      simp [History.MAX_HISTORY] at hc
      omega
    simp only [hc, if_true]
    rw [List.drop_append_of_le_length hlen, List.getLast?_concat]
  · simp only [hc, if_false]
    exact List.getLast?_concat _

theorem applyPatch_preserves_id_of_textPatch (id : String) (p : TaskPatch)
    (hp : p.id = none) :
    ∀ u : Task, ((fun u => if u.id = id then applyPatch u p else u) u).id = u.id := by
  intro u
  by_cases h : u.id = id
  · simp [h, applyPatch_id_of_none hp]
  · simp [h]

/-- The store after `updateTask` on a present task: the targeted document is
patched, the rest is untouched. -/
theorem updateTask_store_eq (store : List Task) (h : History.State) (id : String)
    (updates : TaskPatch) (t : Task) (ht : getTask store id = some t) :
    (actions.updateTask store h id updates).store =
      store.map (fun u => if u.id = id then applyPatch u updates else u) := by
  simp only [actions.updateTask, ht]

theorem updateTask_hist_eq (store : List Task) (h : History.State) (id : String)
    (updates : TaskPatch) (t : Task) (ht : getTask store id = some t) :
    (actions.updateTask store h id updates).hist =
      History.push h (Operation.UPDATE id (snapshotForPatch t updates) updates) := by
  simp only [actions.updateTask, ht]

/-- C1: for a task present in the store, `updateTask(id, {text: s})` followed
by `history.undo()` restores the store exactly (in particular the task's
`text` to its pre-update value, and every field not named in the update is
unchanged in both directions), and a subsequent `history.redo()` restores the
post-update store (text back to `s`). -/
theorem C1_updateTask_undo_redo_roundtrip (store : List Task) (h : History.State)
    (id s : String) (t : Task)
    (hnd : (store.map (fun u => u.id)).Nodup)
    (ht : getTask store id = some t) :
    getTask (actions.updateTask store h id { text := some s }).store id =
        some { t with text := s } ∧
    (∀ u ∈ store, ¬ u.id = id →
        u ∈ (actions.updateTask store h id { text := some s }).store) ∧
    ∃ h1, History.undo (actions.updateTask store h id { text := some s }).hist
        (actions.updateTask store h id { text := some s }).store = some (h1, store) ∧
      ∃ h2, History.redo h1 store =
        some (h2, (actions.updateTask store h id { text := some s }).store) := by
  obtain ⟨hmem, hid⟩ := getTask_some_mem ht
  set patch : TaskPatch := { text := some s } with hpatch
  have hpid : patch.id = none := rfl
  have hf := applyPatch_preserves_id_of_textPatch id patch hpid
  have hstore := updateTask_store_eq store h id patch t ht
  have hhist := updateTask_hist_eq store h id patch t ht
  have hsnap : snapshotForPatch t patch = { text := some t.text } := rfl
  -- the unique element of `store` with the target id is `t`
  have huniq : ∀ u ∈ store, u.id = id → u = t := fun u hu hu' =>
    mem_unique_of_nodup_ids hnd hmem hu (hu'.trans hid.symm)
  refine ⟨?_, ?_, ?_⟩
  · rw [hstore, getTask_map_of_id_preserved store id _ hf, ht]
    simp [hid, applyPatch, hpatch]
  · intro u hu huid
    rw [hstore]
    exact List.mem_map.mpr ⟨u, hu, by simp [huid]⟩
  · rw [hstore, hhist, hsnap]
    set op := Operation.UPDATE id { text := some t.text } patch with hop
    set g1 : Task → Task := fun u => if u.id = id then applyPatch u patch else u with hg1
    have hany1 : (store.map g1).any (fun u => u.id = id) = true := by
      refine List.any_eq_true.mpr ⟨g1 t, List.mem_map_of_mem g1 hmem, ?_⟩
      simp [hf t, hid]
    have hinv : History.applyInverse op (store.map g1) = some store := by
      rw [hop]
      show updateTaskDoc (store.map g1) id { text := some t.text } = some store
      rw [updateTaskDoc, if_pos hany1]
      congr 1
      rw [List.map_map]
      refine (List.map_congr_left ?_).trans (List.map_id store)
      intro u hu
      by_cases h' : u.id = id
      · have hut : u = t := huniq u hu h'
        subst hut
        subst h'
        simp [Function.comp, hg1, applyPatch, hpatch]
      · simp [Function.comp, hg1, h']
    have hundo : History.undo (History.push h op) (store.map g1) =
        some (⟨(History.push h op).undoStack.dropLast, [op]⟩, store) := by
      rw [History.undo, push_undoStack_getLast?]
      simp [hinv, push_redoStack]
    refine ⟨_, hundo, ?_⟩
    have hfwd : History.applyForward op store = some (store.map g1) := by
      rw [hop]
      show updateTaskDoc store id patch = some (store.map g1)
      rw [updateTaskDoc, if_pos (by simpa [hid] using any_id_of_mem hmem)]
    exact ⟨⟨(History.push h op).undoStack.dropLast ++ [op], []⟩, by
      rw [History.redo]
      simp [hfwd]⟩

/-- Witness for C1 at a concrete two-task store. -/
theorem C1_witness :
    getTask (actions.updateTask [sampleTask "a" "root" 1, sampleTask "b" "root" 2]
        ⟨[], []⟩ "a" { text := some "hello" }).store "a" =
      some { sampleTask "a" "root" 1 with text := "hello" } ∧
    (∀ u ∈ [sampleTask "a" "root" 1, sampleTask "b" "root" 2], ¬ u.id = "a" →
        u ∈ (actions.updateTask [sampleTask "a" "root" 1, sampleTask "b" "root" 2]
          ⟨[], []⟩ "a" { text := some "hello" }).store) ∧
    ∃ h1, History.undo
        (actions.updateTask [sampleTask "a" "root" 1, sampleTask "b" "root" 2]
          ⟨[], []⟩ "a" { text := some "hello" }).hist
        (actions.updateTask [sampleTask "a" "root" 1, sampleTask "b" "root" 2]
          ⟨[], []⟩ "a" { text := some "hello" }).store =
        some (h1, [sampleTask "a" "root" 1, sampleTask "b" "root" 2]) ∧
      ∃ h2, History.redo h1 [sampleTask "a" "root" 1, sampleTask "b" "root" 2] =
        some (h2, (actions.updateTask [sampleTask "a" "root" 1, sampleTask "b" "root" 2]
          ⟨[], []⟩ "a" { text := some "hello" }).store) :=
  C1_updateTask_undo_redo_roundtrip
    [sampleTask "a" "root" 1, sampleTask "b" "root" 2] ⟨[], []⟩ "a" "hello"
    (sampleTask "a" "root" 1) (by decide) (by decide)

theorem pushAll_append_singleton (h : History.State) (ops : List Operation)
    (op : Operation) :
    pushAll h (ops ++ [op]) = History.push (pushAll h ops) op := by
  simp [pushAll, List.foldl_append]

theorem push_undoStack_eq (h : History.State) (op : Operation) :
    (History.push h op).undoStack =
      if History.MAX_HISTORY < h.undoStack.length + 1 then
        (h.undoStack ++ [op]).drop 1
      else h.undoStack ++ [op] := by
  simp [History.push]

/-- The undo stack after pushing `ops` onto the empty manager holds the last
`MAX_HISTORY` operations. -/
theorem pushAll_undoStack (ops : List Operation) :
    (pushAll ⟨[], []⟩ ops).undoStack =
      ops.drop (ops.length - History.MAX_HISTORY) := by
  have hM : History.MAX_HISTORY = 50 := rfl
  induction ops using List.reverseRecOn with
  | nil => rfl
  | append_singleton ops op ih =>
    rw [pushAll_append_singleton, push_undoStack_eq, ih]
    have hlen : (ops.drop (ops.length - History.MAX_HISTORY)).length =
        ops.length - (ops.length - History.MAX_HISTORY) := List.length_drop _ _
    by_cases hn : ops.length < History.MAX_HISTORY
    · have h1 : ops.length - History.MAX_HISTORY = 0 := by omega
      have h2 : (ops ++ [op]).length - History.MAX_HISTORY = 0 := by
        simp only [List.length_append, List.length_singleton]
        omega
      rw [h1, h2, List.drop_zero, List.drop_zero, if_neg (by omega)]
    · have hcond : History.MAX_HISTORY <
          (ops.drop (ops.length - History.MAX_HISTORY)).length + 1 := by
        omega
      rw [if_pos hcond,
        List.drop_append_of_le_length (by omega),
        List.drop_drop,
        List.drop_append_of_le_length
          (by simp only [List.length_append, List.length_singleton]; omega)]
      congr 2
      simp only [List.length_append, List.length_singleton]
      omega

/-- C8: `history.push` caps the undo stack at 50 with FIFO eviction — after 51
pushes onto an empty manager exactly the last 50 pushed operations remain (the
first-pushed one is gone) — and every push clears the redo stack, so that
after an `undo()` followed by any new push no redo is available. -/
theorem C8_push_cap_fifo_and_clears_redo :
    (∀ ops : List Operation, ops.length = 51 →
      (pushAll ⟨[], []⟩ ops).undoStack = ops.drop 1 ∧
      (pushAll ⟨[], []⟩ ops).undoStack.length = 50 ∧
      (∀ op0, ops.head? = some op0 → op0 ∉ ops.drop 1 →
        op0 ∉ (pushAll ⟨[], []⟩ ops).undoStack)) ∧
    (∀ (h : History.State) (op : Operation),
      (History.push h op).redoStack = []) ∧
    (∀ (h h1 : History.State) (s s1 : List Task),
      History.undo h s = some (h1, s1) →
      ∀ op, (History.push h1 op).redoStack = []) := by
  refine ⟨?_, fun h op => rfl, fun h h1 s s1 _ op => rfl⟩
  intro ops hlen
  have hdrop : (pushAll ⟨[], []⟩ ops).undoStack = ops.drop 1 := by
    rw [pushAll_undoStack, hlen]
    rfl
  refine ⟨hdrop, ?_, ?_⟩
  · rw [hdrop, List.length_drop, hlen]
  · intro op0 _ hnotin
    rw [hdrop]
    exact hnotin

/-- Witness for C8: 51 concrete pushes; the first operation is evicted. -/
theorem C8_witness :
    ((pushAll ⟨[], []⟩ (Operation.UPDATE "x" {} {} :: List.replicate 50 (Operation.BATCH []))).undoStack =
        List.replicate 50 (Operation.BATCH []) ∧
      (pushAll ⟨[], []⟩ (Operation.UPDATE "x" {} {} :: List.replicate 50 (Operation.BATCH []))).undoStack.length = 50 ∧
      Operation.UPDATE "x" {} {} ∉
        (pushAll ⟨[], []⟩ (Operation.UPDATE "x" {} {} :: List.replicate 50 (Operation.BATCH []))).undoStack) ∧
    (History.push ⟨[], []⟩ (Operation.BATCH [])).redoStack = [] := by
  have happ := C8_push_cap_fifo_and_clears_redo
  obtain ⟨hcap, hclear, _⟩ := happ
  have h51 := hcap (Operation.UPDATE "x" {} {} :: List.replicate 50 (Operation.BATCH []))
    (by simp)
  obtain ⟨h1, h2, h3⟩ := h51
  refine ⟨⟨by simpa using h1, by simpa using h2, ?_⟩, hclear ⟨[], []⟩ (Operation.BATCH [])⟩
  have := h3 (Operation.UPDATE "x" {} {}) rfl (by simp [List.mem_replicate])
  simpa using this

/-- C10: in every reachable history-manager state the two stacks together hold
at most 50 operations; moreover a push caps the undo stack while emptying the
redo stack, and a successful non-trivial `undo()`/`redo()` moves exactly the
popped operation from one stack to the top of the other. -/
theorem C10_history_stacks_invariant :
    (∀ h : History.State, Reachable h →
      h.undoStack.length + h.redoStack.length ≤ History.MAX_HISTORY) ∧
    (∀ (h : History.State) (op : Operation),
      h.undoStack.length ≤ History.MAX_HISTORY →
      (History.push h op).undoStack.length ≤ History.MAX_HISTORY ∧
      (History.push h op).redoStack = []) ∧
    (∀ (h h' : History.State) (s s' : List Task),
      History.undo h s = some (h', s') → h.undoStack ≠ [] →
      ∃ op, h.undoStack = h'.undoStack ++ [op] ∧
        h'.redoStack = h.redoStack ++ [op]) ∧
    (∀ (h h' : History.State) (s s' : List Task),
      History.redo h s = some (h', s') → h.redoStack ≠ [] →
      ∃ op, h.redoStack = h'.redoStack ++ [op] ∧
        h'.undoStack = h.undoStack ++ [op]) := by
  have hM : History.MAX_HISTORY = 50 := rfl
  have hpushlen : ∀ (h : History.State) (op : Operation),
      h.undoStack.length ≤ History.MAX_HISTORY →
      (History.push h op).undoStack.length ≤ History.MAX_HISTORY := by
    intro h op hle
    rw [push_undoStack_eq]
    by_cases hc : History.MAX_HISTORY < h.undoStack.length + 1
    · rw [if_pos hc, List.length_drop]
      simp only [List.length_append, List.length_singleton]
      omega
    · rw [if_neg hc]
      simp only [List.length_append, List.length_singleton]
      omega
  have hundo : ∀ (h h' : History.State) (s s' : List Task),
      History.undo h s = some (h', s') → h.undoStack ≠ [] →
      ∃ op, h.undoStack = h'.undoStack ++ [op] ∧
        h'.redoStack = h.redoStack ++ [op] := by
    intro h h' s s' hu hne
    rcases hgl : h.undoStack.getLast? with _ | op
    · exact absurd (List.getLast?_eq_none_iff.mp hgl) hne
    · rcases hinv : History.applyInverse op s with _ | s2
      · have hnone : History.undo h s = none := by
          unfold History.undo
          rw [hgl]
          simp [hinv]
        rw [hnone] at hu
        cases hu
      · have heq : History.undo h s =
            some (⟨h.undoStack.dropLast, h.redoStack ++ [op]⟩, s2) := by
          unfold History.undo
          rw [hgl]
          simp [hinv]
        rw [heq] at hu
        cases Option.some.inj hu
        exact ⟨op, (List.dropLast_append_getLast? op (Option.mem_def.mpr hgl)).symm,
          rfl⟩
  have hredo : ∀ (h h' : History.State) (s s' : List Task),
      History.redo h s = some (h', s') → h.redoStack ≠ [] →
      ∃ op, h.redoStack = h'.redoStack ++ [op] ∧
        h'.undoStack = h.undoStack ++ [op] := by
    intro h h' s s' hu hne
    rcases hgl : h.redoStack.getLast? with _ | op
    · exact absurd (List.getLast?_eq_none_iff.mp hgl) hne
    · rcases hfwd : History.applyForward op s with _ | s2
      · have hnone : History.redo h s = none := by
          unfold History.redo
          rw [hgl]
          simp [hfwd]
        rw [hnone] at hu
        cases hu
      · have heq : History.redo h s =
            some (⟨h.undoStack ++ [op], h.redoStack.dropLast⟩, s2) := by
          unfold History.redo
          rw [hgl]
          simp [hfwd]
        rw [heq] at hu
        cases Option.some.inj hu
        exact ⟨op, (List.dropLast_append_getLast? op (Option.mem_def.mpr hgl)).symm,
          rfl⟩
  refine ⟨?_, fun h op hle => ⟨hpushlen h op hle, rfl⟩, hundo, hredo⟩
  intro h hr
  induction hr with
  | init => simp [hM]
  | push op hr ih =>
    rename_i h0
    have h1 := hpushlen h0 op (by omega)
    rw [push_redoStack]
    simpa using h1
  | undo hr hu ih =>
    rename_i h0 h' s s'
    by_cases hne : h0.undoStack = []
    · have heq : History.undo h0 s = some (h0, s) := by
        unfold History.undo
        rw [hne]
        rfl
      rw [heq] at hu
      cases Option.some.inj hu
      exact ih
    · obtain ⟨op, h1, h2⟩ := hundo h0 h' s s' hu hne
      have l1 : h0.undoStack.length = h'.undoStack.length + 1 := by
        rw [h1]
        simp
      have l2 : h'.redoStack.length = h0.redoStack.length + 1 := by
        rw [h2]
        simp
      omega
  | redo hr hu ih =>
    rename_i h0 h' s s'
    by_cases hne : h0.redoStack = []
    · have heq : History.redo h0 s = some (h0, s) := by
        unfold History.redo
        rw [hne]
        rfl
      rw [heq] at hu
      cases Option.some.inj hu
      exact ih
    · obtain ⟨op, h1, h2⟩ := hredo h0 h' s s' hu hne
      have l1 : h0.redoStack.length = h'.redoStack.length + 1 := by
        rw [h1]
        simp
      have l2 : h'.undoStack.length = h0.undoStack.length + 1 := by
        rw [h2]
        simp
      omega

/-- Witness for C10 at the initial state and a one-step undo. -/
theorem C10_witness :
    (History.State.mk [] []).undoStack.length + (History.State.mk [] []).redoStack.length ≤
      History.MAX_HISTORY ∧
    (History.push ⟨[], []⟩ (Operation.BATCH [])).undoStack.length ≤ History.MAX_HISTORY := by
  obtain ⟨hinv, hpush, -, -⟩ := C10_history_stacks_invariant
  exact ⟨hinv ⟨[], []⟩ Reachable.init, (hpush ⟨[], []⟩ (Operation.BATCH []) (by simp)).1⟩

theorem ite_events_disj (c : Prop) [Decidable c] (s1 s2 : List Task)
    (h1 h2 : History.State) :
    (if c then (⟨s1, h1, []⟩ : actions.ActResult)
     else ⟨s2, h2, [Ev.historyPush, Ev.storeWrite]⟩).events = [] ∨
    (if c then (⟨s1, h1, []⟩ : actions.ActResult)
     else ⟨s2, h2, [Ev.historyPush, Ev.storeWrite]⟩).events =
      [Ev.historyPush, Ev.storeWrite] := by
  by_cases hc : c
  · left
    simp [hc]
  · right
    simp [hc]

/-- C4 counterexample: `updateTask` on a present task pushes the `UPDATE`
operation onto the history *before* performing the store write, so the claim
"the history push never precedes the store write" fails. -/
theorem C4_counterexample_updateTask_pushes_first :
    (actions.updateTask [sampleTask "a" "root" 1] ⟨[], []⟩ "a"
        { text := some "x" }).events = [Ev.historyPush, Ev.storeWrite] ∧
    PushBeforeWrite (actions.updateTask [sampleTask "a" "root" 1] ⟨[], []⟩ "a"
        { text := some "x" }).events := by
  refine ⟨rfl, 0, 1, by omega, rfl, rfl⟩

/-- C4 amended: only `addTask` commits its store writes before pushing the
operation; `updateTask` (with its sugars `toggleTaskCompletion` and
`toggleFocus`), `deleteTask`, `reorderSiblings`, `reorderInSection` and
`reorderInFocus` push the operation to the History Manager *before* their
store write (or perform no effect at all). -/
theorem C4_amended_effect_order :
    (∀ (store : List Task) (h : History.State) (text parentId : String)
        (tags : List String) (dueDate : Option String)
        (insertAfterOrder : Option Int) (newId : String) (now : Int) (uid : String),
      (actions.addTask store h text parentId tags dueDate insertAfterOrder
          newId now uid).events = [Ev.storeWrite, Ev.historyPush]) ∧
    (∀ (store : List Task) (h : History.State) (id : String) (updates : TaskPatch),
      (actions.updateTask store h id updates).events = [] ∨
      (actions.updateTask store h id updates).events = [Ev.historyPush, Ev.storeWrite]) ∧
    (∀ (store : List Task) (h : History.State) (id : String) (completed : Bool),
      (actions.toggleTaskCompletion store h id completed).events = [] ∨
      (actions.toggleTaskCompletion store h id completed).events = [Ev.historyPush, Ev.storeWrite]) ∧
    (∀ (store : List Task) (h : History.State) (id : String) (isFocused : Bool) (now : Int),
      (actions.toggleFocus store h id isFocused now).events = [] ∨
      (actions.toggleFocus store h id isFocused now).events = [Ev.historyPush, Ev.storeWrite]) ∧
    (∀ (store : List Task) (h : History.State) (id : String) (r : actions.ActResult),
      actions.deleteTask store h id = some r →
      r.events = [Ev.historyPush, Ev.storeWrite]) ∧
    (∀ (store : List Task) (h : History.State) (draggedId newParentId : String)
        (dropIndex : Nat),
      (actions.reorderSiblings store h draggedId newParentId dropIndex).events = [] ∨
      (actions.reorderSiblings store h draggedId newParentId dropIndex).events =
        [Ev.historyPush, Ev.storeWrite]) ∧
    (∀ (store : List Task) (h : History.State) (draggedId : String)
        (targetDate : Option String) (dropIndex : Nat),
      (actions.reorderInSection store h draggedId targetDate dropIndex).events = [] ∨
      (actions.reorderInSection store h draggedId targetDate dropIndex).events =
        [Ev.historyPush, Ev.storeWrite]) ∧
    (∀ (store : List Task) (h : History.State) (draggedId : String) (dropIndex : Nat),
      (actions.reorderInFocus store h draggedId dropIndex).events = [] ∨
      (actions.reorderInFocus store h draggedId dropIndex).events =
        [Ev.historyPush, Ev.storeWrite]) := by
  have hupd : ∀ (store : List Task) (h : History.State) (id : String)
      (updates : TaskPatch),
      (actions.updateTask store h id updates).events = [] ∨
      (actions.updateTask store h id updates).events =
        [Ev.historyPush, Ev.storeWrite] := by
    intro store h id updates
    rcases hg : getTask store id with _ | t
    · left
      simp [actions.updateTask, hg]
    · right
      simp [actions.updateTask, hg]
  refine ⟨fun _ _ _ _ _ _ _ _ _ _ => rfl, hupd,
    fun store h id completed => hupd store h id _,
    fun store h id isFocused now => hupd store h id _, ?_, ?_, ?_, ?_⟩
  · intro store h id r hr
    rcases hb : actions.bfsCollect store (store.length + 2) [id] 0 with _ | ids
    · rw [actions.deleteTask, hb] at hr
      cases hr
    · rw [actions.deleteTask, hb] at hr
      cases Option.some.inj hr
      rfl
  · intro store h draggedId newParentId dropIndex
    rcases hg : getTask store draggedId with _ | t
    · left
      simp [actions.reorderSiblings, hg]
    · simp only [actions.reorderSiblings, hg]
      exact ite_events_disj _ _ _ _ _
  · intro store h draggedId targetDate dropIndex
    rcases hg : getTask store draggedId with _ | t
    · left
      simp [actions.reorderInSection, hg]
    · simp only [actions.reorderInSection, hg]
      exact ite_events_disj _ _ _ _ _
  · intro store h draggedId dropIndex
    rcases hg : getTask store draggedId with _ | t
    · left
      simp [actions.reorderInFocus, hg]
    · simp only [actions.reorderInFocus, hg]
      exact ite_events_disj _ _ _ _ _

/-- Witness for the amended C4 at concrete inputs. -/
theorem C4_amended_witness :
    (actions.addTask [] ⟨[], []⟩ "t" "root" [] none none "n" 0 "u").events =
      [Ev.storeWrite, Ev.historyPush] ∧
    ((actions.updateTask [sampleTask "a" "root" 1] ⟨[], []⟩ "a"
        { text := some "x" }).events = [] ∨
      (actions.updateTask [sampleTask "a" "root" 1] ⟨[], []⟩ "a"
        { text := some "x" }).events = [Ev.historyPush, Ev.storeWrite]) ∧
    (∃ r, actions.deleteTask [sampleTask "a" "root" 1] ⟨[], []⟩ "a" = some r ∧
      r.events = [Ev.historyPush, Ev.storeWrite]) := by
  obtain ⟨hadd, hupd, -, -, hdel, -, -, -⟩ := C4_amended_effect_order
  refine ⟨hadd [] ⟨[], []⟩ "t" "root" [] none none "n" 0 "u",
    hupd [sampleTask "a" "root" 1] ⟨[], []⟩ "a" { text := some "x" },
    ⟨_, rfl, hdel [sampleTask "a" "root" 1] ⟨[], []⟩ "a" _ rfl⟩⟩

/-! ### Write-batch lemmas -/

theorem commitBatch_cons (s : List Task) (w : StoreWrite) (ws : List StoreWrite) :
    commitBatch s (w :: ws) = commitBatch (applyWrite s w) ws := rfl

theorem commitBatch_append (s : List Task) (ws1 ws2 : List StoreWrite) :
    commitBatch s (ws1 ++ ws2) = commitBatch (commitBatch s ws1) ws2 :=
  List.foldl_append _ _ _ _

/-- A batch of `update` writes with pairwise-distinct, id-preserving targets
acts pointwise on the store. -/
theorem commitBatch_upds (ps : List (String × TaskPatch)) (s : List Task)
    (hnodup : (ps.map Prod.fst).Nodup)
    (hid : ∀ q ∈ ps, (Prod.snd q : TaskPatch).id = none) :
    commitBatch s (ps.map (fun q => StoreWrite.upd q.1 q.2)) =
      s.map (fun t =>
        (ps.find? (fun q => q.1 = t.id)).elim t (fun q => applyPatch t q.2)) := by
  induction ps generalizing s with
  | nil =>
    simp [commitBatch]
  | cons q0 ps ih =>
    rw [List.map_cons, commitBatch_cons]
    have hid0 : (Prod.snd q0 : TaskPatch).id = none := hid q0 (List.mem_cons_self _ _)
    have hnodup' : (ps.map Prod.fst).Nodup := (List.map_cons Prod.fst q0 ps ▸ hnodup).of_cons
    have hnotin : q0.1 ∉ ps.map Prod.fst :=
      (List.nodup_cons.mp (List.map_cons Prod.fst q0 ps ▸ hnodup)).1
    rw [ih _ hnodup' (fun q hq => hid q (List.mem_cons_of_mem _ hq))]
    show (s.map _).map _ = _
    rw [List.map_map]
    apply List.map_congr_left
    intro t _
    simp only [Function.comp]
    by_cases hmatch : t.id = q0.1
    · have hf1 : ps.find? (fun q => q.1 = t.id) = none := by
        rw [List.find?_eq_none]
        intro q hq
        simp only [decide_eq_true_eq]
        intro hq1
        apply hnotin
        have hq2 : q.1 ∈ ps.map Prod.fst := List.mem_map_of_mem Prod.fst hq
        rwa [hq1, hmatch] at hq2
      have hf2 : (q0 :: ps).find? (fun q => q.1 = t.id) = some q0 :=
        List.find?_cons_of_pos _ (by simp [hmatch])
      simp only [if_pos hmatch, applyPatch_id_of_none hid0]
      rw [hf1, hf2]
      rfl
    · have hf2 : (q0 :: ps).find? (fun q => q.1 = t.id) =
          ps.find? (fun q => q.1 = t.id) :=
        List.find?_cons_of_neg _ (by simp; exact fun hq => hmatch hq.symm)
      simp only [if_neg hmatch]
      rw [hf2]

/-- `commitBatch_upds` specialised to writes generated by mapping a patch
function over a list of (distinct-id) tasks. -/
theorem commitBatch_upds_by (ts : List Task) (pf : Task → TaskPatch)
    (s : List Task) (hnodup : (ts.map (fun u => u.id)).Nodup)
    (hid : ∀ u, (pf u).id = none) :
    commitBatch s (ts.map (fun u => StoreWrite.upd u.id (pf u))) =
      s.map (fun t =>
        ((ts.map (fun u => (u.id, pf u))).find? (fun q => q.1 = t.id)).elim t
          (fun q => applyPatch t q.2)) := by
  have hmain := commitBatch_upds (ts.map (fun u => (u.id, pf u))) s
    (by rw [List.map_map]; exact hnodup)
    (by
      intro q hq
      obtain ⟨u, -, rfl⟩ := List.mem_map.mp hq
      exact hid u)
  rw [List.map_map] at hmain
  exact hmain

/-- `find?` over the key/patch pairs generated from a filtered store. -/
theorem find?_filter_pairs (store : List Task)
    (hnd : (store.map (fun u => u.id)).Nodup) (sel : Task → Bool)
    (f : Task → TaskPatch) {t : Task} (ht : t ∈ store) :
    (((store.filter sel).map (fun s => (s.id, f s))).find?
        (fun q => q.1 = t.id)) =
      if sel t then some (t.id, f t) else none := by
  induction store with
  | nil => cases ht
  | cons a l ih =>
    have hnd' : (l.map (fun u => u.id)).Nodup :=
      (List.map_cons (fun u : Task => u.id) a l ▸ hnd).of_cons
    have hanotin : a.id ∉ l.map (fun u => u.id) :=
      (List.nodup_cons.mp (List.map_cons (fun u : Task => u.id) a l ▸ hnd)).1
    rcases List.mem_cons.mp ht with rfl | hmem
    · by_cases hsel : sel t
      · rw [List.filter_cons_of_pos hsel, List.map_cons,
          List.find?_cons_of_pos _ (by simp), if_pos hsel]
      · rw [List.filter_cons_of_neg (by simpa using hsel), if_neg hsel,
          List.find?_eq_none]
        intro q hq
        obtain ⟨s, hs, rfl⟩ := List.mem_map.mp hq
        have hsl : s ∈ l := List.mem_of_mem_filter hs
        simp only [decide_eq_true_eq]
        intro heq
        exact hanotin (heq ▸ List.mem_map_of_mem (fun u => u.id) hsl)
    · have htid : ¬ a.id = t.id := fun heq =>
        hanotin (heq ▸ List.mem_map_of_mem (fun u => u.id) hmem)
      by_cases hsel : sel a
      · rw [List.filter_cons_of_pos hsel, List.map_cons,
          List.find?_cons_of_neg _ (by simpa using htid)]
        exact ih hnd' hmem
      · rw [List.filter_cons_of_neg (by simpa using hsel)]
        exact ih hnd' hmem

theorem setTask_append_of_fresh {s : List Task} {t : Task}
    (hfresh : ∀ u ∈ s, ¬ u.id = t.id) : setTask s t = s ++ [t] := by
  rw [setTask, if_neg]
  intro hany
  obtain ⟨u, hu, hid⟩ := List.any_eq_true.mp hany
  exact hfresh u hu (by simpa using hid)

/-! ### C6: `addTask` with `insertAfterOrder` -/

/-- The store produced by `addTask` with `insertAfterOrder = k`: every sibling
with `order ≥ k+1` shifted up by one, and the new task appended at the end of
the collection. -/
theorem addTask_store_eq (store : List Task) (h : History.State)
    (text parentId : String) (tags : List String) (dueDate : Option String)
    (k : Int) (newId : String) (now : Int) (uid : String)
    (hnd : (store.map (fun u => u.id)).Nodup)
    (hfresh : ∀ u ∈ store, ¬ u.id = newId) :
    (actions.addTask store h text parentId tags dueDate (some k) newId now
        uid).store =
      store.map (fun t =>
          if (k + 1 ≤ t.order) ∧ t.parentId = parentId then
            { t with order := t.order + 1 }
          else t) ++
        [(actions.addTask store h text parentId tags dueDate (some k) newId now
            uid).newTask] := by
  simp only [actions.addTask]
  rw [List.filter_filter, commitBatch_append, commitBatch_upds_by _ _ _
    (hnd.sublist ((List.filter_sublist store).map (fun u => u.id)))
    (fun u => rfl)]
  show setTask _ _ = _
  set sel : Task → Bool :=
    fun a => decide (k + 1 ≤ a.order) && decide (a.parentId = parentId) with hsel
  set pf : Task → TaskPatch :=
    fun u => { order := some (u.order + 1) } with hpf
  have hmapeq : store.map (fun t =>
      (((store.filter sel).map (fun u => (u.id, pf u))).find?
          (fun q => q.1 = t.id)).elim t (fun q => applyPatch t q.2)) =
      store.map (fun t =>
        if (k + 1 ≤ t.order) ∧ t.parentId = parentId then
          { t with order := t.order + 1 }
        else t) := by
    apply List.map_congr_left
    intro t ht
    rw [find?_filter_pairs store hnd sel pf ht]
    by_cases hc : (k + 1 ≤ t.order) ∧ t.parentId = parentId
    · rw [if_pos (by simp [hsel, hc.1, hc.2]), if_pos hc]
      rfl
    · rw [if_neg (by simp [hsel]; intro h1 h2; exact hc ⟨h1, h2⟩), if_neg hc]
      rfl
  rw [hmapeq, setTask_append_of_fresh]
  intro u hu
  obtain ⟨t, ht, rfl⟩ := List.mem_map.mp hu
  by_cases hc : (k + 1 ≤ t.order) ∧ t.parentId = parentId
  · rw [if_pos hc]
    exact hfresh t ht
  · rw [if_neg hc]
    exact hfresh t ht

/-- C6: `addTask(text, parentId, tags, dueDate, insertAfterOrder = k)` on a
store with distinct sibling orders creates the new task with `order = k+1`,
increments by exactly one the order of every pre-existing sibling whose order
was `≥ k+1`, leaves every other task unchanged, afterwards exactly one sibling
(the new task) has `order = k+1`, and records everything as one single `BATCH`
operation containing one `UPDATE` per shifted sibling plus the `ADD`. -/
theorem C6_addTask_insert_semantics (store : List Task) (h : History.State)
    (text parentId : String) (tags : List String) (dueDate : Option String)
    (k : Int) (newId : String) (now : Int) (uid : String)
    (r : actions.AddResult)
    (hnd : (store.map (fun u => u.id)).Nodup)
    (hfresh : ∀ u ∈ store, ¬ u.id = newId)
    (hdist : (store.filter (fun t => t.parentId = parentId)).Pairwise
      (fun a b => a.order ≠ b.order))
    (hr : actions.addTask store h text parentId tags dueDate (some k) newId now
      uid = r) :
    r.newTask.order = k + 1 ∧ r.newTask.id = newId ∧
    r.newTask.parentId = parentId ∧
    getTask r.store newId = some r.newTask ∧
    (∀ t ∈ store, t.parentId = parentId → k + 1 ≤ t.order →
      { t with order := t.order + 1 } ∈ r.store) ∧
    (∀ t ∈ store, t.parentId = parentId → t.order < k + 1 → t ∈ r.store) ∧
    (∀ t ∈ store, ¬ t.parentId = parentId → t ∈ r.store) ∧
    (r.store.filter (fun t => t.parentId = parentId ∧ t.order = k + 1)).map
        (fun t => t.id) = [newId] ∧
    (∃ subOps, r.hist = History.push h (Operation.BATCH subOps) ∧
      subOps.length =
        (store.filter (fun t => t.parentId = parentId ∧ k + 1 ≤ t.order)).length
          + 1) := by
  subst hr
  have hstore := addTask_store_eq store h text parentId tags dueDate k newId
    now uid hnd hfresh
  have hidshift : ∀ t : Task,
      ((if (k + 1 ≤ t.order) ∧ t.parentId = parentId then
          { t with order := t.order + 1 } else t) : Task).id = t.id := by
    intro t
    by_cases hc : (k + 1 ≤ t.order) ∧ t.parentId = parentId
    · rw [if_pos hc]
    · rw [if_neg hc]
  refine ⟨rfl, rfl, rfl, ?_, ?_, ?_, ?_, ?_, ?_⟩
  · rw [hstore, getTask, List.find?_append]
    have hA : (store.map (fun t =>
        if (k + 1 ≤ t.order) ∧ t.parentId = parentId then
          { t with order := t.order + 1 } else t)).find?
          (fun u => u.id = newId) = none := by
      rw [List.find?_eq_none]
      intro u hu
      obtain ⟨t, ht, rfl⟩ := List.mem_map.mp hu
      simp only [hidshift t, decide_eq_true_eq]
      exact hfresh t ht
    rw [hA, Option.none_or]
    have hnid : (actions.addTask store h text parentId tags dueDate (some k)
        newId now uid).newTask.id = newId := rfl
    rw [List.find?_cons_of_pos _ (by simp [hnid])]
  · intro t ht hp ho
    rw [hstore]
    refine List.mem_append_left _ (List.mem_map.mpr ⟨t, ht, ?_⟩)
    rw [if_pos ⟨ho, hp⟩]
  · intro t ht hp ho
    rw [hstore]
    refine List.mem_append_left _ (List.mem_map.mpr ⟨t, ht, ?_⟩)
    rw [if_neg]
    intro hc
    omega
  · intro t ht hp
    rw [hstore]
    refine List.mem_append_left _ (List.mem_map.mpr ⟨t, ht, ?_⟩)
    rw [if_neg]
    intro hc
    exact hp hc.2
  · rw [hstore, List.filter_append]
    have hA : (store.map (fun t =>
        if (k + 1 ≤ t.order) ∧ t.parentId = parentId then
          { t with order := t.order + 1 } else t)).filter
          (fun t => t.parentId = parentId ∧ t.order = k + 1) = [] := by
      rw [List.filter_eq_nil_iff]
      intro u hu
      obtain ⟨t, ht, rfl⟩ := List.mem_map.mp hu
      by_cases hc : (k + 1 ≤ t.order) ∧ t.parentId = parentId
      · rw [if_pos hc]
        simp only [decide_eq_true_eq, not_and]
        intro hpp
        omega
      · rw [if_neg hc]
        simp only [decide_eq_true_eq, not_and]
        intro hpp hoo
        exact hc ⟨by omega, hpp⟩
    rw [hA, List.nil_append]
    have hnid : (actions.addTask store h text parentId tags dueDate (some k)
        newId now uid).newTask.id = newId := rfl
    have hpid : (actions.addTask store h text parentId tags dueDate (some k)
        newId now uid).newTask.parentId = parentId := rfl
    have hord : (actions.addTask store h text parentId tags dueDate (some k)
        newId now uid).newTask.order = k + 1 := rfl
    rw [List.filter_cons_of_pos (by simp [hpid, hord]), List.filter_nil]
    simp [hnid]
  · refine ⟨_, rfl, ?_⟩
    show (List.map _ _ ++ [_]).length = _
    rw [List.length_append, List.length_map, List.filter_filter]
    have heq : store.filter
        (fun a => decide (k + 1 ≤ a.order) && decide (a.parentId = parentId)) =
        store.filter (fun t => t.parentId = parentId ∧ k + 1 ≤ t.order) := by
      apply List.filter_congr
      intro a _
      by_cases h1 : k + 1 ≤ a.order <;> by_cases h2 : a.parentId = parentId <;>
        simp [h1, h2]
    rw [heq]
    rfl

/-- Witness for C6 at a concrete three-task store with `k = 0`. -/
theorem C6_witness :
    ∃ r, actions.addTask
        [sampleTask "s1" "root" 1, sampleTask "s2" "root" 2, sampleTask "o" "x" 5]
        ⟨[], []⟩ "new" "root" [] none (some 0) "n1" 7 "u" = r ∧
      (r.newTask.order = 0 + 1 ∧
        getTask r.store "n1" = some r.newTask ∧
        ({ sampleTask "s1" "root" 1 with order := 2 } : Task) ∈ r.store ∧
        (r.store.filter (fun t => t.parentId = "root" ∧ t.order = 0 + 1)).map
          (fun t => t.id) = ["n1"]) := by
  refine ⟨_, rfl, ?_⟩
  have hc := C6_addTask_insert_semantics
    [sampleTask "s1" "root" 1, sampleTask "s2" "root" 2, sampleTask "o" "x" 5]
    ⟨[], []⟩ "new" "root" [] none 0 "n1" 7 "u" _
    (by decide) (by decide) (by decide) rfl
  obtain ⟨h1, -, -, h4, h5, -, -, h8, -⟩ := hc
  exact ⟨h1, h4, by
    have := h5 (sampleTask "s1" "root" 1) (by decide) rfl (by decide)
    simpa using this, h8⟩

/-! ### C9: the breadth-first collection loop of `deleteTask` -/

/-- Main invariant lemma for the BFS loop: on a store with duplicate-free ids
whose parent links admit a rank function, the loop never exhausts its fuel,
never appends an id twice, and collects exactly the ids reachable from the
start id. -/
theorem bfsCollect_spec (store : List Task) (rk : String → Nat) (root : String)
    (hnd : (store.map (fun u => u.id)).Nodup) (hrk : HasRank store rk) :
    ∀ (fuel : Nat) (acc : List String) (idx : Nat),
    acc.Nodup →
    idx ≤ acc.length →
    (∀ (j : Nat) (hj : j < acc.length), j < idx →
      ∀ c ∈ actions.childIds store (acc.get ⟨j, hj⟩), c ∈ acc) →
    (∀ c ∈ acc, c = root ∨ ∃ (j : Nat) (hj : j < acc.length), j < idx ∧
      c ∈ actions.childIds store (acc.get ⟨j, hj⟩)) →
    (∀ c ∈ acc, c = root ∨ ∃ t ∈ store, t.id = c) →
    (∀ c ∈ acc, rk root ≤ rk c) →
    root ∈ acc →
    (∀ c ∈ acc, IsDesc store root c) →
    store.length + 2 ≤ fuel + idx →
    ∃ l, actions.bfsCollect store fuel acc idx = some l ∧
      l.Nodup ∧
      (∀ c ∈ acc, c ∈ l) ∧
      (∀ p ∈ l, ∀ c ∈ actions.childIds store p, c ∈ l) ∧
      (∀ c ∈ l, IsDesc store root c) := by
  intro fuel
  induction fuel with
  | zero =>
    intro acc idx hacc hidx _ _ hmem _ _ _ hfuel
    exfalso
    have hsub : acc ⊆ root :: store.map (fun u => u.id) := by
      intro c hc
      rcases hmem c hc with rfl | ⟨t, ht, htid⟩
      · exact List.mem_cons_self _ _
      · exact List.mem_cons_of_mem _ (htid ▸ List.mem_map_of_mem (fun u => u.id) ht)
    have hlen : acc.length ≤ store.length + 1 := by
      have := (List.subperm_of_subset hacc hsub).length_le
      simpa using this
    omega
  | succ fuel ih =>
    intro acc idx hacc hidx hclosed hprov hmem hrkbd hroot hdesc hfuel
    rw [actions.bfsCollect]
    by_cases hlt : idx < acc.length
    · rw [dif_pos hlt]
      set p := acc.get ⟨idx, hlt⟩ with hp
      have hpmem : p ∈ acc := acc.get_mem _ _
      -- children of a collected id are store tasks with that parent
      have hchildAny : ∀ (pid : String), ∀ c ∈ actions.childIds store pid,
          ∃ t ∈ store, t.parentId = pid ∧ t.id = c := by
        intro pid c hc
        obtain ⟨t, ht, rfl⟩ := List.mem_map.mp hc
        exact ⟨t, List.mem_of_mem_filter ht, by
          simpa using List.of_mem_filter ht, rfl⟩
      have hchild := hchildAny p
      have hfresh : ∀ c ∈ actions.childIds store p, c ∉ acc := by
        intro c hc hcacc
        obtain ⟨t, ht, htp, htid⟩ := hchild c hc
        rcases hprov c hcacc with hcroot | ⟨j, hj, hjlt, hcj⟩
        · -- the start id would be a child of a collected id: rank contradiction
          have h1 : rk t.parentId < rk t.id := (hrk t ht).2
          have h2 : rk root ≤ rk p := hrkbd p hpmem
          rw [htp, htid, hcroot] at h1
          omega
        · -- c would be a child of two distinct collected ids
          obtain ⟨u, hu, hup, huid⟩ := hchildAny (acc.get ⟨j, hj⟩) c hcj
          have htu : u = t := mem_unique_of_nodup_ids hnd ht hu (by rw [htid, huid])
          have hq : acc.get ⟨j, hj⟩ = p := by
            rw [← hup, htu, htp]
          have hfin : (⟨j, hj⟩ : Fin acc.length) = ⟨idx, hlt⟩ :=
            (List.Nodup.get_inj_iff hacc).mp (hq.trans hp)
          have : j = idx := congrArg Fin.val hfin
          omega
      have hchildnd : (actions.childIds store p).Nodup := by
        rw [actions.childIds]
        exact hnd.sublist ((List.filter_sublist store).map (fun u => u.id))
      have hacc' : (acc ++ actions.childIds store p).Nodup := by
        rw [List.nodup_append]
        exact ⟨hacc, hchildnd, fun a ha hb => hfresh a hb ha⟩
      have hgetold : ∀ (j : Nat) (hj : j < acc.length),
          (acc ++ actions.childIds store p).get
              ⟨j, by rw [List.length_append]; omega⟩ = acc.get ⟨j, hj⟩ :=
        fun j hj => List.get_append j hj
      obtain ⟨l, hl, hlnd, hlsub, hlclosed, hldesc⟩ :=
        ih (acc ++ actions.childIds store p) (idx + 1)
          hacc'
          (by rw [List.length_append]; omega)
          (by
            intro j hj hjlt c hc
            by_cases hji : j < idx
            · have hjacc : j < acc.length := by omega
              rw [show ((acc ++ actions.childIds store p).get ⟨j, hj⟩ : String) =
                  acc.get ⟨j, hjacc⟩ from List.get_append j hjacc] at hc
              exact List.mem_append_left _ (hclosed j hjacc hji c hc)
            · have hji' : j = idx := by omega
              subst hji'
              rw [show ((acc ++ actions.childIds store p).get ⟨j, hj⟩ : String) =
                  acc.get ⟨j, hlt⟩ from List.get_append j hlt] at hc
              exact List.mem_append_right _ hc)
          (by
            intro c hc
            rcases List.mem_append.mp hc with hca | hcc
            · rcases hprov c hca with rfl | ⟨j, hj, hjlt, hcj⟩
              · exact Or.inl rfl
              · refine Or.inr ⟨j, by rw [List.length_append]; omega, by omega, ?_⟩
                rw [show ((acc ++ actions.childIds store p).get
                    ⟨j, by rw [List.length_append]; omega⟩ : String) =
                    acc.get ⟨j, hj⟩ from List.get_append j hj]
                exact hcj
            · refine Or.inr ⟨idx, by rw [List.length_append]; omega, by omega, ?_⟩
              rw [show ((acc ++ actions.childIds store p).get
                  ⟨idx, by rw [List.length_append]; omega⟩ : String) =
                  acc.get ⟨idx, hlt⟩ from List.get_append idx hlt]
              exact hcc)
          (by
            intro c hc
            rcases List.mem_append.mp hc with hca | hcc
            · exact hmem c hca
            · obtain ⟨t, ht, -, htid⟩ := hchild c hcc
              exact Or.inr ⟨t, ht, htid⟩)
          (by
            intro c hc
            rcases List.mem_append.mp hc with hca | hcc
            · exact hrkbd c hca
            · obtain ⟨t, ht, htp, htid⟩ := hchild c hcc
              have h1 : rk t.parentId < rk t.id := (hrk t ht).2
              have h2 : rk root ≤ rk p := hrkbd p hpmem
              rw [htp] at h1
              rw [← htid]
              omega)
          (List.mem_append_left _ hroot)
          (by
            intro c hc
            rcases List.mem_append.mp hc with hca | hcc
            · exact hdesc c hca
            · obtain ⟨t, ht, htp, htid⟩ := hchild c hcc
              exact htid ▸ IsDesc.step (hdesc p hpmem) ht htp)
          (by omega)
      exact ⟨l, hl, hlnd, fun c hc => hlsub c (List.mem_append_left _ hc),
        hlclosed, hldesc⟩
    · rw [dif_neg hlt]
      have hidx' : idx = acc.length := by omega
      refine ⟨acc, rfl, hacc, fun c hc => hc, ?_, hdesc⟩
      intro q hq c hc
      obtain ⟨⟨j, hj⟩, hget⟩ := List.mem_iff_get.mp hq
      exact hclosed j hj (by omega) c (hget ▸ hc)

/-- C9: on a store with duplicate-free ids whose `parentId` links are acyclic
(witnessed by a rank function), the breadth-first descendant-collection loop
of `deleteTask` terminates without exhausting the `store.length + 2` fuel
budget, and no id is appended to the collected list more than once. -/
theorem C9_deleteTask_bfs_terminates (store : List Task) (id : String)
    (rk : String → Nat) (hnd : (store.map (fun u => u.id)).Nodup)
    (hrk : HasRank store rk) :
    ∃ l, actions.bfsCollect store (store.length + 2) [id] 0 = some l ∧
      l.Nodup := by
  obtain ⟨l, hl, hlnd, -, -, -⟩ := bfsCollect_spec store rk id hnd hrk
    (store.length + 2) [id] 0
    (List.nodup_singleton id)
    (by simp)
    (by intro j hj hjlt; omega)
    (by intro c hc; exact Or.inl (by simpa using hc))
    (by intro c hc; exact Or.inl (by simpa using hc))
    (by intro c hc; rw [show c = id from by simpa using hc])
    (List.mem_singleton_self id)
    (by intro c hc; rw [show c = id from by simpa using hc]; exact IsDesc.refl)
    (by omega)
  exact ⟨l, hl, hlnd⟩

/-- Witness for C9 on a concrete three-task chain. -/
theorem C9_witness :
    ∃ l, actions.bfsCollect
        [sampleTask "p" "root" 1, sampleTask "c" "p" 1, sampleTask "g" "c" 1]
        5 ["p"] 0 = some l ∧ l.Nodup :=
  C9_deleteTask_bfs_terminates
    [sampleTask "p" "root" 1, sampleTask "c" "p" 1, sampleTask "g" "c" 1] "p"
    (fun s => if s = "root" then 0 else if s = "c" then 2 else
      if s = "g" then 3 else 1)
    (by decide) (by unfold HasRank; decide)

/-! ### C2: `deleteTask` removes the subtree and `undo` restores it -/

/-- The ids of the snapshots collected by `deleteTask` are the collected ids
that exist in the store. -/
theorem filterMap_getTask_ids (store : List Task) (l : List String) :
    ((l.filterMap (fun c => getTask store c)).map (fun t => t.id)) =
      l.filter (fun c => (getTask store c).isSome) := by
  induction l with
  | nil => rfl
  | cons c cs ih =>
    rw [List.filterMap_cons]
    rcases hg : getTask store c with _ | t
    · rw [List.filter_cons_of_neg (by simp [hg])]
      exact ih
    · have hid : t.id = c := (getTask_some_mem hg).2
      rw [List.filter_cons_of_pos (by simp [hg]), List.map_cons, ih, hid]

/-- A batch of deletes filters out exactly the deleted ids. -/
theorem commitBatch_dels (ids : List String) (s : List Task) :
    commitBatch s (ids.map StoreWrite.del) = s.filter (fun u => ¬ u.id ∈ ids) := by
  induction ids generalizing s with
  | nil => simp [commitBatch]
  | cons i rest ih =>
    rw [List.map_cons, commitBatch_cons]
    show commitBatch (deleteTaskDoc s i) _ = _
    rw [ih, deleteTaskDoc, List.filter_filter]
    apply List.filter_congr
    intro u _
    by_cases h1 : u.id = i <;> by_cases h2 : u.id ∈ rest <;> simp [h1, h2]

/-- Undoing a batch of per-task `DELETE` entries (played in reverse order)
recreates the snapshots by successive `setDoc` calls. -/
theorem applyInverseRev_deletes (ts : List Task) (s : List Task) :
    History.applyInverseRev (ts.map (fun t => Operation.DELETE t.id t)) s =
      some (ts.reverse.foldl setTask s) := by
  induction ts with
  | nil => rfl
  | cons t ts ih =>
    rw [List.map_cons]
    simp only [History.applyInverseRev, ih, Option.bind_some]
    simp only [History.applyInverse]
    rw [List.reverse_cons, List.foldl_append]
    rfl

/-- Folding `setDoc` over tasks whose ids are fresh for the store appends
them. -/
theorem foldl_setTask_append (ts : List Task) (s : List Task)
    (hnd : (ts.map (fun t => t.id)).Nodup)
    (hfresh : ∀ t ∈ ts, ∀ u ∈ s, ¬ u.id = t.id) :
    ts.foldl setTask s = s ++ ts := by
  induction ts generalizing s with
  | nil => simp
  | cons t ts ih =>
    have hnotin : t.id ∉ ts.map (fun t => t.id) :=
      (List.nodup_cons.mp (List.map_cons (fun t : Task => t.id) t ts ▸ hnd)).1
    have hnd' : (ts.map (fun t => t.id)).Nodup :=
      (List.map_cons (fun t : Task => t.id) t ts ▸ hnd).of_cons
    have hfr' : ∀ t' ∈ ts, ∀ u ∈ s ++ [t], ¬ u.id = t'.id := by
      intro t' ht' u hu
      rcases List.mem_append.mp hu with hus | hut
      · exact hfresh t' (List.mem_cons_of_mem t ht') u hus
      · rw [List.mem_singleton.mp hut]
        intro heq
        exact hnotin (heq ▸ List.mem_map_of_mem (fun t : Task => t.id) ht')
    rw [List.foldl_cons,
      setTask_append_of_fresh (fun u hu => hfresh t (List.mem_cons_self t ts) u hu),
      ih (s ++ [t]) hnd' hfr', List.append_assoc]
    rfl

/-- C2: on a store whose `parentId` links form a forest (witnessed by a rank
function), `deleteTask(id)` removes exactly `id` and its transitive
descendants, leaving every other task record unchanged; the recorded operation
is one `BATCH` of per-task `DELETE` entries; and a subsequent `history.undo()`
restores every removed task with all its original field values (including
`parentId`), so afterwards the store holds exactly the original task
records. -/
theorem C2_deleteTask_subtree_undo (store : List Task) (h : History.State)
    (id : String) (rk : String → Nat)
    (hnd : (store.map (fun u => u.id)).Nodup) (hrk : HasRank store rk)
    (hpresent : ∃ t0 ∈ store, t0.id = id) :
    ∃ r, actions.deleteTask store h id = some r ∧
      (∀ u, u ∈ r.store ↔ u ∈ store ∧ ¬ IsDesc store id u.id) ∧
      (∃ subOps, r.hist = History.push h (Operation.BATCH subOps) ∧
        ∀ op ∈ subOps, ∃ tid snap, op = Operation.DELETE tid snap) ∧
      ∃ h2 s2, History.undo r.hist r.store = some (h2, s2) ∧
        (∀ u, u ∈ s2 ↔ u ∈ store) := by
  obtain ⟨l, hb, hlnd, hlsub, hlclosed, hldesc⟩ := bfsCollect_spec store rk id
    hnd hrk (store.length + 2) [id] 0
    (List.nodup_singleton id)
    (by simp)
    (by intro j hj hjlt; omega)
    (by intro c hc; exact Or.inl (by simpa using hc))
    (by intro c hc; exact Or.inl (by simpa using hc))
    (by intro c hc; rw [show c = id from by simpa using hc])
    (List.mem_singleton_self id)
    (by intro c hc; rw [show c = id from by simpa using hc]; exact IsDesc.refl)
    (by omega)
  have hidl : id ∈ l := hlsub id (List.mem_singleton_self id)
  have hcomp : ∀ x, IsDesc store id x → x ∈ l := by
    intro x hx
    induction hx with
    | refl => exact hidl
    | step hdesc ht htp ih =>
      rename_i p t
      refine hlclosed p ih t.id ?_
      rw [actions.childIds]
      have hmemf : t ∈ store.filter (fun u => decide (u.parentId = p)) :=
        List.mem_filter.mpr ⟨ht, by simpa using htp⟩
      exact List.mem_map_of_mem (fun u => u.id) hmemf
  have hiff : ∀ x, x ∈ l ↔ IsDesc store id x := fun x => ⟨hldesc x, hcomp x⟩
  -- snapshots
  have hsnapmem : ∀ t ∈ l.filterMap (fun c => getTask store c),
      t ∈ store ∧ t.id ∈ l := by
    intro t ht
    obtain ⟨c, hcl, hgc⟩ := List.mem_filterMap.mp ht
    obtain ⟨htm, htid⟩ := getTask_some_mem hgc
    exact ⟨htm, htid ▸ hcl⟩
  have hsnapids : ((l.filterMap (fun c => getTask store c)).map
      (fun t => t.id)) = l.filter (fun c => (getTask store c).isSome) :=
    filterMap_getTask_ids store l
  have hsnapnd : ((l.filterMap (fun c => getTask store c)).map
      (fun t => t.id)).Nodup := by
    rw [hsnapids]
    exact hlnd.filter _
  have hmemid : ∀ u ∈ store,
      (u.id ∈ (l.filterMap (fun c => getTask store c)).map (fun t => t.id) ↔
        u.id ∈ l) := by
    intro u hu
    rw [hsnapids, List.mem_filter]
    constructor
    · exact fun hx => hx.1
    · intro hx
      refine ⟨hx, ?_⟩
      rw [getTask_eq_some_of_mem hnd hu]
      rfl
  simp only [actions.deleteTask, hb]
  refine ⟨_, rfl, ?_, ⟨_, rfl, ?_⟩, ?_⟩
  · -- the store after the commit
    intro u
    show u ∈ commitBatch store _ ↔ _
    have hw : (l.filterMap (fun c => getTask store c)).map
        (fun t => StoreWrite.del t.id) =
        (((l.filterMap (fun c => getTask store c)).map (fun t => t.id)).map
          StoreWrite.del) := by
      rw [List.map_map]
      rfl
    rw [hw, commitBatch_dels, List.mem_filter]
    constructor
    · intro ⟨hu, hnotin⟩
      refine ⟨hu, fun hdesc => ?_⟩
      have : u.id ∈ l := hcomp u.id hdesc
      rw [← hmemid u hu] at this
      simp [this] at hnotin
    · intro ⟨hu, hnotdesc⟩
      refine ⟨hu, ?_⟩
      simp only [decide_eq_true_eq]
      intro hin
      exact hnotdesc (hldesc u.id ((hmemid u hu).mp hin))
  · -- the recorded batch is made of DELETE entries
    intro op hop
    obtain ⟨t, -, rfl⟩ := List.mem_map.mp hop
    exact ⟨t.id, t, rfl⟩
  · -- undo restores the snapshots
    set snaps := l.filterMap (fun c => getTask store c) with hsnaps
    set ops := snaps.map (fun t => Operation.DELETE t.id t) with hops
    set store1 := commitBatch store (snaps.map (fun t => StoreWrite.del t.id))
      with hstore1
    have hstore1mem : ∀ u, u ∈ store1 ↔ u ∈ store ∧ ¬ u.id ∈ l := by
      intro u
      rw [hstore1, show snaps.map (fun t => StoreWrite.del t.id) =
          ((snaps.map (fun t => t.id)).map StoreWrite.del) from by
            rw [List.map_map]; rfl,
        commitBatch_dels, List.mem_filter]
      constructor
      · intro ⟨hu, hnotin⟩
        refine ⟨hu, fun hin => ?_⟩
        rw [← hmemid u hu] at hin
        simp [hin] at hnotin
      · intro ⟨hu, hnotin⟩
        refine ⟨hu, ?_⟩
        simp only [decide_eq_true_eq]
        intro hin
        exact hnotin ((hmemid u hu).mp hin)
    have hinv : History.applyInverse (Operation.BATCH ops) store1 =
        some (snaps.reverse.foldl setTask store1) := by
      simp only [History.applyInverse, hops]
      exact applyInverseRev_deletes snaps store1
    have hfold : snaps.reverse.foldl setTask store1 = store1 ++ snaps.reverse := by
      apply foldl_setTask_append
      · rw [show snaps.reverse.map (fun t => t.id) =
            (snaps.map (fun t => t.id)).reverse from List.map_reverse _ _]
        exact List.nodup_reverse.mpr hsnapnd
      · intro t ht u hu
        have htid : t.id ∈ l := (hsnapmem t (List.mem_reverse.mp ht)).2
        have hu1 := (hstore1mem u).mp hu
        intro heq
        exact hu1.2 (heq ▸ htid)
    have hundo : History.undo (History.push h (Operation.BATCH ops)) store1 =
        some (⟨(History.push h (Operation.BATCH ops)).undoStack.dropLast,
          [Operation.BATCH ops]⟩, store1 ++ snaps.reverse) := by
      rw [History.undo, push_undoStack_getLast?]
      simp [hinv, hfold, push_redoStack]
    refine ⟨_, _, hundo, ?_⟩
    intro u
    rw [List.mem_append]
    constructor
    · intro hu
      rcases hu with hu1 | hu2
      · exact ((hstore1mem u).mp hu1).1
      · exact (hsnapmem u (List.mem_reverse.mp hu2)).1
    · intro hu
      by_cases hin : u.id ∈ l
      · refine Or.inr (List.mem_reverse.mpr ?_)
        rw [hsnaps]
        exact List.mem_filterMap.mpr ⟨u.id, hin, getTask_eq_some_of_mem hnd hu⟩
      · exact Or.inl ((hstore1mem u).mpr ⟨hu, hin⟩)

/-- Witness for C2 on a concrete parent/child/other store. -/
theorem C2_witness :
    ∃ r, actions.deleteTask
        [sampleTask "p" "root" 1, sampleTask "c" "p" 1, sampleTask "z" "root" 2]
        ⟨[], []⟩ "p" = some r ∧
      (∀ u, u ∈ r.store ↔
        u ∈ [sampleTask "p" "root" 1, sampleTask "c" "p" 1, sampleTask "z" "root" 2] ∧
        ¬ IsDesc [sampleTask "p" "root" 1, sampleTask "c" "p" 1, sampleTask "z" "root" 2] "p" u.id) ∧
      (∃ subOps, r.hist = History.push ⟨[], []⟩ (Operation.BATCH subOps) ∧
        ∀ op ∈ subOps, ∃ tid snap, op = Operation.DELETE tid snap) ∧
      ∃ h2 s2, History.undo r.hist r.store = some (h2, s2) ∧
        (∀ u, u ∈ s2 ↔
          u ∈ [sampleTask "p" "root" 1, sampleTask "c" "p" 1, sampleTask "z" "root" 2]) := by
  obtain ⟨r, hr, h1, h2, h3⟩ := C2_deleteTask_subtree_undo
    [sampleTask "p" "root" 1, sampleTask "c" "p" 1, sampleTask "z" "root" 2]
    ⟨[], []⟩ "p"
    (fun s => if s = "c" then 2 else if s = "root" then 0 else 1)
    (by decide) (by unfold HasRank; decide)
    ⟨sampleTask "p" "root" 1, by decide, by decide⟩
  exact ⟨r, hr, h1, h2, h3⟩

/-! ### C7: `reorderSiblings` -/

/-- In an association list with duplicate-free keys, `find?` on the key of a
member returns exactly that member. -/
theorem find?_key_of_nodup {β : Type} (ps : List (String × β))
    (hnd : (ps.map Prod.fst).Nodup) {q : String × β} (hq : q ∈ ps) :
    ps.find? (fun r => r.1 = q.1) = some q := by
  induction ps with
  | nil => cases hq
  | cons p ps ih =>
    have hnd' : (ps.map Prod.fst).Nodup :=
      (List.map_cons Prod.fst p ps ▸ hnd).of_cons
    have hpnotin : p.1 ∉ ps.map Prod.fst :=
      (List.nodup_cons.mp (List.map_cons Prod.fst p ps ▸ hnd)).1
    rcases List.mem_cons.mp hq with rfl | hmem
    · exact List.find?_cons_of_pos _ (by simp)
    · have hne : ¬ p.1 = q.1 := fun heq =>
        hpnotin (heq ▸ List.mem_map_of_mem Prod.fst hmem)
      rw [List.find?_cons_of_neg _ (by simpa using hne)]
      exact ih hnd' hmem

theorem map_filterMap_sublist {α β γ : Type} (l : List α) (f : α → Option β)
    (g : β → γ) (h : α → γ) (hfg : ∀ x q, f x = some q → g q = h x) :
    ((l.filterMap f).map g).Sublist (l.map h) := by
  induction l with
  | nil => simp
  | cons a l ih =>
    rw [List.filterMap_cons, List.map_cons]
    rcases hf : f a with _ | q
    · exact ih.cons (h a)
    · rw [List.map_cons, hfg a q hf]
      exact ih.cons₂ (h a)

/-- Splitting a filter on a predicate that additionally admits exactly the
(unique) task `d`: the result is a permutation of `d` prepended to the
stricter filter. -/
theorem filter_perm_cons_of_unique {l : List Task}
    (hnd : (l.map (fun u => u.id)).Nodup) {d : Task} (hd : d ∈ l)
    (S Sp : Task → Bool) (hSd : S d = true) (hSpd : Sp d = false)
    (hagree : ∀ u ∈ l, ¬ u.id = d.id → S u = Sp u) :
    (l.filter S).Perm (d :: l.filter Sp) := by
  induction l with
  | nil => cases hd
  | cons a rest ih =>
    have hnd' : (rest.map (fun u => u.id)).Nodup :=
      (List.map_cons (fun u : Task => u.id) a rest ▸ hnd).of_cons
    have hanotin : a.id ∉ rest.map (fun u => u.id) :=
      (List.nodup_cons.mp (List.map_cons (fun u : Task => u.id) a rest ▸ hnd)).1
    by_cases haid : a.id = d.id
    · have had : a = d := by
        rcases List.mem_cons.mp hd with rfl | hmem
        · rfl
        · exact absurd (haid ▸ List.mem_map_of_mem (fun u => u.id) hmem) hanotin
      subst had
      rw [List.filter_cons_of_pos hSd, List.filter_cons_of_neg (by simp [hSpd])]
      have hcong : rest.filter S = rest.filter Sp := by
        apply List.filter_congr
        intro u hu
        refine hagree u (List.mem_cons_of_mem a hu) fun heq => ?_
        exact hanotin (heq ▸ List.mem_map_of_mem (fun u : Task => u.id) hu)
      rw [hcong]
    · have hdrest : d ∈ rest := by
        rcases List.mem_cons.mp hd with rfl | hm
        · exact absurd rfl haid
        · exact hm
      have hagree' : ∀ u ∈ rest, ¬ u.id = d.id → S u = Sp u := fun u hu =>
        hagree u (List.mem_cons_of_mem a hu)
      have ha : S a = Sp a := hagree a (List.mem_cons_self _ _) haid
      have ihp := ih hnd' hdrest hagree'
      by_cases hSa : S a = true
      · rw [List.filter_cons_of_pos hSa, List.filter_cons_of_pos (ha ▸ hSa)]
        exact (ihp.cons a).trans (List.Perm.swap d a _)
      · rw [List.filter_cons_of_neg (by simpa using hSa),
          List.filter_cons_of_neg (by rw [← ha]; simpa using hSa)]
        exact ihp

/-- The length of a JS `splice` insertion. -/
theorem spliceAt_length (l : List Task) (i : Nat) (x : Task) :
    (actions.spliceAt l i x).length = l.length + 1 := by
  simp only [actions.spliceAt, List.length_append, List.length_cons,
    List.length_take, List.length_drop]
  omega

/-- The store produced by `reorderSiblings` on a present dragged task: every
task whose id occurs in the spliced sibling list receives the order equal to
its splice position (the dragged task additionally its new parent); all other
tasks are untouched.  This holds whether or not the recorded batch turned out
empty. -/
theorem reorderSiblings_store_eq (store : List Task) (h : History.State)
    (draggedId newParentId : String) (dropIndex : Nat) (d : Task)
    (ltr spliced : List Task)
    (hnd : (store.map (fun u => u.id)).Nodup)
    (hg : getTask store draggedId = some d)
    (hltr : ltr = List.insertionSort (fun a b => a.order ≤ b.order)
      ((store.filter (fun t => t.parentId = newParentId)).filter
        (fun t => ¬ t.id = draggedId)))
    (hspl : spliced = actions.spliceAt ltr dropIndex d) :
    (actions.reorderSiblings store h draggedId newParentId dropIndex).store =
      store.map (fun u =>
        ((spliced.enum.map (fun p => (p.2.id, (p.1 : Int)))).find?
            (fun q => q.1 = u.id)).elim u (fun q =>
          if u.id = draggedId then
            { u with parentId := newParentId, order := q.2 }
          else { u with order := q.2 })) := by
  obtain ⟨hdmem, hdid⟩ := getTask_some_mem hg
  have hltrmem : ∀ t ∈ ltr, t ∈ store ∧ t.parentId = newParentId ∧
      ¬ t.id = draggedId := by
    intro t ht
    rw [hltr] at ht
    have ht2 := (List.perm_insertionSort _ _).mem_iff.mp ht
    have h1 := List.mem_of_mem_filter ht2
    have h2 := List.of_mem_filter ht2
    exact ⟨List.mem_of_mem_filter h1, by simpa using List.of_mem_filter h1,
      by simpa using h2⟩
  have hsplmem : ∀ t ∈ spliced, t = d ∨ t ∈ ltr := by
    intro t ht
    rw [hspl, actions.spliceAt] at ht
    rcases List.mem_append.mp ht with h1 | h2
    · exact Or.inr ((List.take_sublist _ _).subset h1)
    · rcases List.mem_cons.mp h2 with rfl | h3
      · exact Or.inl rfl
      · exact Or.inr ((List.drop_sublist _ _).subset h3)
  have hsplstore : ∀ t ∈ spliced, t ∈ store := by
    intro t ht
    rcases hsplmem t ht with rfl | hl
    · exact hdmem
    · exact (hltrmem t hl).1
  have hsplperm : spliced.Perm (d :: ltr) := by
    rw [hspl, actions.spliceAt]
    refine List.perm_middle.trans ?_
    rw [List.take_append_drop]
  have hltrids : (ltr.map (fun u => u.id)).Nodup := by
    have hperm : (ltr.map (fun u => u.id)).Perm
        ((((store.filter (fun t => t.parentId = newParentId)).filter
          (fun t => ¬ t.id = draggedId))).map (fun u => u.id)) := by
      rw [hltr]
      exact (List.perm_insertionSort _ _).map _
    rw [hperm.nodup_iff]
    exact hnd.sublist
      (((List.filter_sublist _).trans (List.filter_sublist _)).map _)
  have hdninltr : d.id ∉ ltr.map (fun u => u.id) := by
    intro hmem
    obtain ⟨t, ht, heq⟩ := List.mem_map.mp hmem
    exact (hltrmem t ht).2.2 (by rw [heq, hdid])
  have hsplids : (spliced.map (fun u => u.id)).Nodup := by
    rw [(hsplperm.map (fun u => u.id)).nodup_iff]
    exact List.nodup_cons.mpr ⟨hdninltr, hltrids⟩
  have hsplnd : spliced.Nodup := hsplids.of_map
  have hdspl : d ∈ spliced := hsplperm.mem_iff.mpr (List.mem_cons_self _ _)
  set assoc : List (String × Int) :=
    spliced.enum.map (fun p => (p.2.id, (p.1 : Int))) with hassoc
  have hkeys : assoc.map Prod.fst = spliced.map (fun u => u.id) := by
    rw [hassoc, List.map_map,
      show (Prod.fst ∘ fun p : Nat × Task => (p.2.id, (p.1 : Int))) =
        ((fun u : Task => u.id) ∘ Prod.snd) from rfl,
      ← List.map_map, List.enum_map_snd]
  have hkeysnd : (assoc.map Prod.fst).Nodup := by
    rw [hkeys]
    exact hsplids
  have hassoc_find : ∀ (i : Nat) (t : Task), (i, t) ∈ spliced.enum →
      assoc.find? (fun q => q.1 = t.id) = some (t.id, (i : Int)) := by
    intro i t hmem
    exact find?_key_of_nodup assoc hkeysnd
      (by rw [hassoc]; exact List.mem_map_of_mem _ hmem)
  have hassoc_none : ∀ x : String, x ∉ spliced.map (fun u => u.id) →
      assoc.find? (fun q => q.1 = x) = none := by
    intro x hx
    rw [List.find?_eq_none]
    intro q hq
    simp only [decide_eq_true_eq]
    intro h1
    apply hx
    rw [← hkeys, ← h1]
    exact List.mem_map_of_mem Prod.fst hq
  set ps : List (String × TaskPatch) :=
    spliced.enum.filterMap (orderPatchEntry draggedId d.order) with hps
  have hstep_val : ∀ (p : Nat × Task) (q : String × TaskPatch),
      orderPatchEntry draggedId d.order p = some q →
      q = (p.2.id, { order := some ((p.1 : Int)) }) := by
    intro p q hq
    unfold orderPatchEntry at hq
    by_cases h1 : p.2.id = draggedId
    · rw [if_pos h1] at hq
      by_cases h2 : ¬ d.order = (p.1 : Int)
      · rw [if_pos h2] at hq
        exact (Option.some.inj hq).symm
      · rw [if_neg h2] at hq
        cases hq
    · rw [if_neg h1] at hq
      by_cases h2 : ¬ p.2.order = (p.1 : Int)
      · rw [if_pos h2] at hq
        exact (Option.some.inj hq).symm
      · rw [if_neg h2] at hq
        cases hq
  have hpskeys : (ps.map Prod.fst).Sublist (spliced.map (fun u => u.id)) := by
    rw [hps]
    have hs := map_filterMap_sublist spliced.enum
      (orderPatchEntry draggedId d.order) Prod.fst (fun p => p.2.id)
      (fun p q hq => by rw [hstep_val p q hq])
    rw [show spliced.enum.map (fun p : Nat × Task => p.2.id) =
        spliced.map (fun u => u.id) from by
      rw [show (fun p : Nat × Task => p.2.id) =
        ((fun u : Task => u.id) ∘ Prod.snd) from rfl, ← List.map_map,
        List.enum_map_snd]] at hs
    exact hs
  have hpsnd : (ps.map Prod.fst).Nodup := hsplids.sublist hpskeys
  have hpsid : ∀ q ∈ ps, (Prod.snd q : TaskPatch).id = none := by
    intro q hq
    rw [hps] at hq
    obtain ⟨p, -, hpq⟩ := List.mem_filterMap.mp hq
    rw [hstep_val p q hpq]
  have hps_find_some : ∀ (i : Nat) (t : Task), (i, t) ∈ spliced.enum →
      ∀ q, orderPatchEntry draggedId d.order (i, t) = some q →
      ps.find? (fun r => r.1 = t.id) = some q := by
    intro i t hmem q hq
    have hqmem : q ∈ ps := by
      rw [hps]
      exact List.mem_filterMap.mpr ⟨(i, t), hmem, hq⟩
    have hkey : q.1 = t.id := by rw [hstep_val (i, t) q hq]
    have hf := find?_key_of_nodup ps hpsnd hqmem
    rw [hkey] at hf
    exact hf
  have hps_find_none : ∀ (i : Nat) (t : Task), (i, t) ∈ spliced.enum →
      orderPatchEntry draggedId d.order (i, t) = none →
      ps.find? (fun r => r.1 = t.id) = none := by
    intro i t hmem hnone
    rw [List.find?_eq_none]
    intro q hq
    simp only [decide_eq_true_eq]
    intro hkeq
    rw [hps] at hq
    obtain ⟨p, hpmem, hpq⟩ := List.mem_filterMap.mp hq
    have hpkey : q.1 = p.2.id := by rw [hstep_val p q hpq]
    have hid2 : p.2.id = t.id := by rw [← hpkey, hkeq]
    have hgp := List.mk_mem_enum_iff_getElem?.mp hpmem
    have hgt := List.mk_mem_enum_iff_getElem?.mp hmem
    obtain ⟨hlp, hep⟩ := List.getElem?_eq_some.mp hgp
    obtain ⟨hlt2, het⟩ := List.getElem?_eq_some.mp hgt
    have hp2spl : p.2 ∈ spliced := by
      rw [← hep]
      exact List.getElem_mem _
    have htspl : t ∈ spliced := by
      rw [← het]
      exact List.getElem_mem _
    have hp2t : p.2 = t := mem_unique_of_nodup_ids hsplids htspl hp2spl hid2
    have hij : p.1 = i := by
      apply hsplnd.getElem_inj_iff.mp
      rw [hep, het, hp2t]
    have hpit : p = (i, t) := Prod.ext hij hp2t
    rw [hpit, hnone] at hpq
    cases hpq
  have hPid : ∀ v : Task,
      ((if v.id = draggedId then ({ v with parentId := newParentId } : Task)
        else v)).id = v.id := by
    intro v
    by_cases hv : v.id = draggedId
    · rw [if_pos hv]
    · rw [if_neg hv]
  have hMainEq : commitBatch store
      ((if ¬ d.parentId = newParentId then
          [StoreWrite.upd draggedId { parentId := some newParentId }]
        else []) ++
        (spliced.enum.filterMap (fun p =>
          if p.2.id = draggedId then
            if ¬ d.order = (p.1 : Int) then
              some (Operation.UPDATE p.2.id { order := some d.order }
                      { order := some (p.1 : Int) },
                    StoreWrite.upd p.2.id { order := some (p.1 : Int) })
            else none
          else
            if ¬ p.2.order = (p.1 : Int) then
              some (Operation.UPDATE p.2.id { order := some p.2.order }
                      { order := some (p.1 : Int) },
                    StoreWrite.upd p.2.id { order := some (p.1 : Int) })
            else none)).map Prod.snd) =
      store.map (fun u =>
        (assoc.find? (fun q => q.1 = u.id)).elim u (fun q =>
          if u.id = draggedId then
            { u with parentId := newParentId, order := q.2 }
          else { u with order := q.2 })) := by
    rw [commitBatch_append]
    have hP : commitBatch store
        (if ¬ d.parentId = newParentId then
          [StoreWrite.upd draggedId { parentId := some newParentId }]
        else []) =
        store.map (fun u => if u.id = draggedId then
          { u with parentId := newParentId } else u) := by
      by_cases hpar : ¬ d.parentId = newParentId
      · rw [if_pos hpar]
        show store.map _ = store.map _
        apply List.map_congr_left
        intro u hu
        by_cases hud : u.id = draggedId
        · rw [if_pos hud, if_pos hud]
          rfl
        · rw [if_neg hud, if_neg hud]
      · rw [if_neg hpar]
        show store = _
        symm
        refine (List.map_congr_left ?_).trans (List.map_id store)
        intro u hu
        by_cases hud : u.id = draggedId
        · have hud2 : u = d := mem_unique_of_nodup_ids hnd hdmem hu
            (by rw [hud, hdid])
          rw [if_pos hud, hud2, ← not_not.mp hpar]
          rfl
        · rw [if_neg hud]
          rfl
    rw [hP]
    have hOW : (spliced.enum.filterMap (fun p =>
        if p.2.id = draggedId then
          if ¬ d.order = (p.1 : Int) then
            some (Operation.UPDATE p.2.id { order := some d.order }
                    { order := some (p.1 : Int) },
                  StoreWrite.upd p.2.id { order := some (p.1 : Int) })
          else none
        else
          if ¬ p.2.order = (p.1 : Int) then
            some (Operation.UPDATE p.2.id { order := some p.2.order }
                    { order := some (p.1 : Int) },
                  StoreWrite.upd p.2.id { order := some (p.1 : Int) })
          else none)).map Prod.snd =
        ps.map (fun q => StoreWrite.upd q.1 q.2) := by
      rw [List.map_filterMap, hps, List.map_filterMap]
      apply List.filterMap_congr
      intro p _
      unfold orderPatchEntry
      by_cases h1 : p.2.id = draggedId
      · rw [if_pos h1, if_pos h1]
        by_cases h2 : ¬ d.order = (p.1 : Int)
        · rw [if_pos h2, if_pos h2]
          rfl
        · rw [if_neg h2, if_neg h2]
          rfl
      · rw [if_neg h1, if_neg h1]
        by_cases h2 : ¬ p.2.order = (p.1 : Int)
        · rw [if_pos h2, if_pos h2]
          rfl
        · rw [if_neg h2, if_neg h2]
          rfl
    rw [hOW, commitBatch_upds ps _ hpsnd hpsid, List.map_map]
    apply List.map_congr_left
    intro u hu
    simp only [Function.comp]
    by_cases hin : u.id ∈ spliced.map (fun v => v.id)
    · obtain ⟨t, htspl, htid⟩ := List.mem_map.mp hin
      obtain ⟨⟨i, hilt⟩, hget⟩ := List.mem_iff_get.mp htspl
      have henum : (i, t) ∈ spliced.enum := by
        rw [List.mk_mem_enum_iff_getElem?]
        exact List.getElem?_eq_some.mpr ⟨hilt, by rw [← hget]; rfl⟩
      have hafind := hassoc_find i t henum
      rw [htid] at hafind
      rw [hafind]
      simp only [Option.elim]
      rw [show ((if u.id = draggedId then
          ({ u with parentId := newParentId } : Task) else u)).id = u.id
        from hPid u]
      by_cases hud : u.id = draggedId
      · have hud2 : u = d := mem_unique_of_nodup_ids hnd hdmem hu
          (by rw [hud, hdid])
        have htd : t = d := mem_unique_of_nodup_ids hsplids hdspl htspl
          (by rw [htid, hud, hdid])
        by_cases hskip : d.order = (i : Int)
        · have hstep : orderPatchEntry draggedId d.order (i, t) = none := by
            unfold orderPatchEntry
            rw [if_pos (by rw [htd, hdid] : ((i, t) : Nat × Task).2.id = draggedId),
              if_neg (by simpa using hskip)]
          have hfind0 := hps_find_none i t henum hstep
          rw [htid] at hfind0
          rw [hfind0]
          simp only [Option.elim]
          rw [if_pos hud, if_pos hud]
          rw [show ((i : Int)) = u.order from by rw [hud2, ← hskip]]
        · have hstep : orderPatchEntry draggedId d.order (i, t) =
              some (t.id, { order := some ((i : Int)) }) := by
            unfold orderPatchEntry
            rw [if_pos (by rw [htd, hdid] : ((i, t) : Nat × Task).2.id = draggedId),
              if_pos (by simpa using hskip)]
          have hfind := hps_find_some i t henum _ hstep
          rw [htid] at hfind
          rw [hfind]
          simp only [Option.elim]
          rw [if_pos hud, if_pos hud]
          rfl
      · have htu : t = u := mem_unique_of_nodup_ids hnd hu
          (hsplstore t htspl) htid
        by_cases hskip : t.order = (i : Int)
        · have hstep : orderPatchEntry draggedId d.order (i, t) = none := by
            unfold orderPatchEntry
            rw [if_neg (by rw [htid]; exact hud :
                ¬ ((i, t) : Nat × Task).2.id = draggedId),
              if_neg (by simpa using hskip)]
          have hfind0 := hps_find_none i t henum hstep
          rw [htid] at hfind0
          rw [hfind0]
          simp only [Option.elim]
          rw [if_neg hud, if_neg hud]
          rw [show ((i : Int)) = u.order from by rw [← htu, ← hskip]]
        · have hstep : orderPatchEntry draggedId d.order (i, t) =
              some (t.id, { order := some ((i : Int)) }) := by
            unfold orderPatchEntry
            rw [if_neg (by rw [htid]; exact hud :
                ¬ ((i, t) : Nat × Task).2.id = draggedId),
              if_pos (by simpa using hskip)]
          have hfind := hps_find_some i t henum _ hstep
          rw [htid] at hfind
          rw [hfind]
          simp only [Option.elim]
          rw [if_neg hud, if_neg hud]
          rfl
    · have hud : ¬ u.id = draggedId := by
        intro hud
        apply hin
        exact List.mem_map.mpr ⟨d, hdspl, by rw [hdid, hud]⟩
      rw [hassoc_none u.id hin]
      simp only [if_neg hud]
      have hnone : ps.find? (fun q => q.1 = u.id) = none := by
        rw [List.find?_eq_none]
        intro q hq
        simp only [decide_eq_true_eq]
        intro hkeq
        apply hin
        rw [← hkeq]
        exact hpskeys.subset (List.mem_map_of_mem Prod.fst hq)
      rw [hnone]
      rfl
  simp only [actions.reorderSiblings, hg]
  rw [← hltr, ← hspl, apply_ite actions.ActResult.store]
  by_cases hpar : ¬ d.parentId = newParentId
  · rw [if_pos hpar] at hMainEq
    simp only [if_pos hpar]
    split
    · next hemp =>
      simp at hemp
    · exact hMainEq
  · have hparent : d.parentId = newParentId := not_not.mp hpar
    rw [if_neg hpar, List.nil_append] at hMainEq
    simp only [if_neg hpar, List.nil_append]
    split
    · next hemp =>
      have hnoneall := List.filterMap_eq_nil.mp (List.map_eq_nil.mp
        (List.isEmpty_iff.mp hemp))
      symm
      refine (List.map_congr_left ?_).trans (List.map_id store)
      intro u hu
      by_cases hin : u.id ∈ spliced.map (fun v => v.id)
      · obtain ⟨t, htspl, htid⟩ := List.mem_map.mp hin
        obtain ⟨⟨i, hilt⟩, hget⟩ := List.mem_iff_get.mp htspl
        have henum : (i, t) ∈ spliced.enum := by
          rw [List.mk_mem_enum_iff_getElem?]
          exact List.getElem?_eq_some.mpr ⟨hilt, by rw [← hget]; rfl⟩
        have hafind := hassoc_find i t henum
        rw [htid] at hafind
        rw [hafind]
        simp only [Option.elim]
        have hstepnone := hnoneall (i, t) henum
        by_cases hud : u.id = draggedId
        · have hud2 : u = d := mem_unique_of_nodup_ids hnd hdmem hu
            (by rw [hud, hdid])
          have htd : t = d := mem_unique_of_nodup_ids hsplids hdspl htspl
            (by rw [htid, hud, hdid])
          have hcond : ((i, t) : Nat × Task).2.id = draggedId := by
            rw [htd, hdid]
          rw [if_pos hcond] at hstepnone
          have hskip : d.order = (i : Int) := by
            by_contra hcon
            rw [if_pos hcon] at hstepnone
            cases hstepnone
          rw [if_pos hud, hud2, ← hparent, ← hskip]
          rfl
        · have htu : t = u := mem_unique_of_nodup_ids hnd hu
            (hsplstore t htspl) htid
          have hcond : ¬ ((i, t) : Nat × Task).2.id = draggedId := by
            rw [htid]
            exact hud
          rw [if_neg hcond] at hstepnone
          have hskip : t.order = (i : Int) := by
            by_contra hcon
            rw [if_pos hcon] at hstepnone
            cases hstepnone
          rw [htu] at hskip
          rw [if_neg hud, ← hskip]
          rfl
      · rw [hassoc_none u.id hin]
        rfl
    · exact hMainEq

/-- The association list built from the enumerated spliced list maps each
entry's id to its position; looking up a member's id succeeds with its index. -/
theorem enum_assoc_find (spliced : List Task)
    (hsplids : (spliced.map (fun u => u.id)).Nodup)
    (i : Nat) (t : Task) (hmem : (i, t) ∈ spliced.enum) :
    (spliced.enum.map (fun p => (p.2.id, (p.1 : Int)))).find?
      (fun q => q.1 = t.id) = some (t.id, (i : Int)) := by
  have hkeys : ((spliced.enum.map (fun p => (p.2.id, (p.1 : Int)))).map Prod.fst)
      = spliced.map (fun u => u.id) := by
    rw [List.map_map,
      show (Prod.fst ∘ fun p : Nat × Task => (p.2.id, (p.1 : Int))) =
        ((fun u : Task => u.id) ∘ Prod.snd) from rfl,
      ← List.map_map, List.enum_map_snd]
  exact find?_key_of_nodup _ (by rw [hkeys]; exact hsplids)
    (List.mem_map_of_mem _ hmem)

/-- Ids absent from the spliced list are not found in the association list. -/
theorem enum_assoc_none (spliced : List Task) (x : String)
    (hx : x ∉ spliced.map (fun u => u.id)) :
    (spliced.enum.map (fun p => (p.2.id, (p.1 : Int)))).find?
      (fun q => q.1 = x) = none := by
  have hkeys : ((spliced.enum.map (fun p => (p.2.id, (p.1 : Int)))).map Prod.fst)
      = spliced.map (fun u => u.id) := by
    rw [List.map_map,
      show (Prod.fst ∘ fun p : Nat × Task => (p.2.id, (p.1 : Int))) =
        ((fun u : Task => u.id) ∘ Prod.snd) from rfl,
      ← List.map_map, List.enum_map_snd]
  rw [List.find?_eq_none]
  intro q hq
  simp only [decide_eq_true_eq]
  intro h1
  apply hx
  rw [← hkeys, ← h1]
  exact List.mem_map_of_mem Prod.fst hq

/-- C7: for a store with unique ids containing the dragged task, a target
parent and a dropIndex bounded by the number of other target children (their
order values pairwise distinct), `reorderSiblings` (i) gives the dragged task
parentId = newParentId and order = dropIndex, (ii) makes the children of the
target parent exactly the previous children without the dragged task plus the
dragged task, (iii) reassigns their order values to the dense sequence
0..m-1, (iv) leaves every task that is neither dragged nor a target child
unchanged, and (v) either records nothing or pushes a single BATCH whose
operations are all UPDATEs with genuinely different previous/new snapshots
(no-op order updates are skipped). -/
theorem C7_reorderSiblings_dense (store : List Task) (h : History.State)
    (draggedId newParentId : String) (dropIndex : Nat) (d : Task)
    (hnd : (store.map (fun u => u.id)).Nodup)
    (hg : getTask store draggedId = some d)
    (hdrop : dropIndex ≤ ((store.filter (fun t => t.parentId = newParentId)).filter
      (fun t => ¬ t.id = draggedId)).length)
    (hdist : ((store.filter (fun t => t.parentId = newParentId)).filter
      (fun t => ¬ t.id = draggedId)).Pairwise (fun a b => ¬ a.order = b.order)) :
    getTask (actions.reorderSiblings store h draggedId newParentId dropIndex).store
        draggedId =
      some { d with parentId := newParentId, order := (dropIndex : Int) } ∧
    (((actions.reorderSiblings store h draggedId newParentId dropIndex).store.filter
        (fun t => t.parentId = newParentId)).map (fun t => t.id)).Perm
      (draggedId :: ((store.filter (fun t => t.parentId = newParentId)).filter
        (fun t => ¬ t.id = draggedId)).map (fun t => t.id)) ∧
    (((actions.reorderSiblings store h draggedId newParentId dropIndex).store.filter
        (fun t => t.parentId = newParentId)).map (fun t => t.order)).Perm
      ((List.range (((store.filter (fun t => t.parentId = newParentId)).filter
        (fun t => ¬ t.id = draggedId)).length + 1)).map
          (fun i : Nat => ((i : Int)))) ∧
    (∀ u ∈ store, ¬ u.parentId = newParentId → ¬ u.id = draggedId →
      u ∈ (actions.reorderSiblings store h draggedId newParentId dropIndex).store) ∧
    ((actions.reorderSiblings store h draggedId newParentId dropIndex).hist = h ∨
      ∃ ops, ¬ ops = [] ∧
        (actions.reorderSiblings store h draggedId newParentId dropIndex).hist =
          History.push h (Operation.BATCH ops) ∧
        ∀ op ∈ ops, ∃ tid prev new, op = Operation.UPDATE tid prev new ∧
          ¬ prev = new) := by
  obtain ⟨hdmem, hdid⟩ := getTask_some_mem hg
  set ltr := List.insertionSort (fun a b => a.order ≤ b.order)
    ((store.filter (fun t => t.parentId = newParentId)).filter
      (fun t => ¬ t.id = draggedId)) with hltr
  set spliced := actions.spliceAt ltr dropIndex d with hspl
  have hstore := reorderSiblings_store_eq store h draggedId newParentId dropIndex
    d ltr spliced hnd hg hltr hspl
  set F : Task → Task := fun u =>
    ((spliced.enum.map (fun p => (p.2.id, (p.1 : Int)))).find?
        (fun q => q.1 = u.id)).elim u (fun q =>
      if u.id = draggedId then { u with parentId := newParentId, order := q.2 }
      else { u with order := q.2 }) with hF
  have hlp : ltr.Perm ((store.filter (fun t => t.parentId = newParentId)).filter
      (fun t => ¬ t.id = draggedId)) := by
    rw [hltr]
    exact List.perm_insertionSort _ _
  have hltrmem : ∀ t ∈ ltr, t ∈ store ∧ t.parentId = newParentId ∧
      ¬ t.id = draggedId := by
    intro t ht
    have ht2 := hlp.mem_iff.mp ht
    have h1 := List.mem_of_mem_filter ht2
    have h2 := List.of_mem_filter ht2
    exact ⟨List.mem_of_mem_filter h1, by simpa using List.of_mem_filter h1,
      by simpa using h2⟩
  have hsplmem : ∀ t ∈ spliced, t = d ∨ t ∈ ltr := by
    intro t ht
    rw [hspl, actions.spliceAt] at ht
    rcases List.mem_append.mp ht with h1 | h2
    · exact Or.inr ((List.take_sublist _ _).subset h1)
    · rcases List.mem_cons.mp h2 with rfl | h3
      · exact Or.inl rfl
      · exact Or.inr ((List.drop_sublist _ _).subset h3)
  have hsplstore : ∀ t ∈ spliced, t ∈ store := by
    intro t ht
    rcases hsplmem t ht with rfl | hl
    · exact hdmem
    · exact (hltrmem t hl).1
  have hsplperm : spliced.Perm (d :: ltr) := by
    rw [hspl, actions.spliceAt]
    refine List.perm_middle.trans ?_
    rw [List.take_append_drop]
  have hltrids : (ltr.map (fun u => u.id)).Nodup := by
    rw [(hlp.map (fun u => u.id)).nodup_iff]
    exact hnd.sublist
      (((List.filter_sublist _).trans (List.filter_sublist _)).map _)
  have hdninltr : d.id ∉ ltr.map (fun u => u.id) := by
    intro hmem
    obtain ⟨t, ht, heq⟩ := List.mem_map.mp hmem
    exact (hltrmem t ht).2.2 (by rw [heq, hdid])
  have hsplids : (spliced.map (fun u => u.id)).Nodup := by
    rw [(hsplperm.map (fun u => u.id)).nodup_iff]
    exact List.nodup_cons.mpr ⟨hdninltr, hltrids⟩
  have hsplnd : spliced.Nodup := hsplids.of_map
  have hdspl : d ∈ spliced := hsplperm.mem_iff.mpr (List.mem_cons_self _ _)
  have hlenltr : ltr.length =
      ((store.filter (fun t => t.parentId = newParentId)).filter
        (fun t => ¬ t.id = draggedId)).length := hlp.length_eq
  have hdrop2 : dropIndex ≤ ltr.length := by
    rw [hlenltr]
    exact hdrop
  have hsplen : spliced.length =
      ((store.filter (fun t => t.parentId = newParentId)).filter
        (fun t => ¬ t.id = draggedId)).length + 1 := by
    rw [hspl, spliceAt_length, hlenltr]
  have htk : (ltr.take dropIndex).length = dropIndex := by
    rw [List.length_take]
    exact Nat.min_eq_left hdrop2
  have hgetd : spliced[dropIndex]? = some d := by
    rw [hspl, actions.spliceAt, List.getElem?_append_right htk.le, htk,
      Nat.sub_self]
    simp
  have henumd : (dropIndex, d) ∈ spliced.enum :=
    List.mk_mem_enum_iff_getElem?.mpr hgetd
  have hFat : ∀ (i : Nat) (t : Task), (i, t) ∈ spliced.enum →
      F t = if t.id = draggedId then
        { t with parentId := newParentId, order := ((i : Int)) }
      else { t with order := ((i : Int)) } := by
    intro i t hmem
    simp only [hF]
    rw [enum_assoc_find spliced hsplids i t hmem]
    rfl
  have hFnone : ∀ u : Task, u.id ∉ spliced.map (fun v => v.id) → F u = u := by
    intro u hu
    simp only [hF]
    rw [enum_assoc_none spliced u.id hu]
    rfl
  have hFid : ∀ u : Task, (F u).id = u.id := by
    intro u
    simp only [hF]
    cases hfq : (spliced.enum.map (fun p => (p.2.id, (p.1 : Int)))).find?
        (fun q => q.1 = u.id) with
    | none => rfl
    | some q =>
      simp only [Option.elim]
      by_cases hud : u.id = draggedId
      · rw [if_pos hud]
      · rw [if_neg hud]
  have hS := List.filter_append_perm
    (fun u : Task => decide (u.id ∈ spliced.map (fun v => v.id))) store
  have hstnd : store.Nodup := hnd.of_map
  have hfilnd : (store.filter (fun u : Task =>
      decide (u.id ∈ spliced.map (fun v => v.id)))).Nodup := hstnd.filter _
  have hSperm : (store.filter (fun u : Task =>
      decide (u.id ∈ spliced.map (fun v => v.id)))).Perm spliced := by
    rw [List.perm_ext_iff_of_nodup hfilnd hsplnd]
    intro t
    constructor
    · intro ht
      have htmem := List.mem_of_mem_filter ht
      have hts := of_decide_eq_true ((List.mem_filter.mp ht).2)
      obtain ⟨s, hs, hsid⟩ := List.mem_map.mp hts
      have hsu : s = t := mem_unique_of_nodup_ids hnd htmem (hsplstore s hs) hsid
      rw [← hsu]
      exact hs
    · intro ht
      exact List.mem_filter.mpr ⟨hsplstore t ht,
        decide_eq_true (List.mem_map_of_mem (fun v : Task => v.id) ht)⟩
  have hznope : ((store.filter (fun u : Task =>
      ! decide (u.id ∈ spliced.map (fun v => v.id)))).map F).filter
      (fun t => decide (t.parentId = newParentId)) = [] := by
    rw [List.filter_eq_nil_iff]
    intro x hx
    obtain ⟨u, hu, rfl⟩ := List.mem_map.mp hx
    have humem := List.mem_of_mem_filter hu
    have hnS := (List.mem_filter.mp hu).2
    have hnotin : u.id ∉ spliced.map (fun v : Task => v.id) := by
      intro hin
      rw [decide_eq_true hin] at hnS
      simp at hnS
    rw [hFnone u hnotin]
    simp only [decide_eq_true_eq]
    intro hPu
    apply hnotin
    by_cases hud : u.id = draggedId
    · exact List.mem_map.mpr ⟨d, hdspl, by rw [hdid, hud]⟩
    · have hu2 : u ∈ (store.filter (fun t => t.parentId = newParentId)).filter
          (fun t => ¬ t.id = draggedId) := List.mem_filter.mpr
        ⟨List.mem_filter.mpr ⟨humem, decide_eq_true hPu⟩, decide_eq_true hud⟩
      have hul : u ∈ ltr := hlp.mem_iff.mpr hu2
      have hus : u ∈ spliced := hsplperm.mem_iff.mpr (List.mem_cons_of_mem d hul)
      exact List.mem_map_of_mem (fun v : Task => v.id) hus
  have hallP : ((store.filter (fun u : Task =>
      decide (u.id ∈ spliced.map (fun v => v.id)))).map F).filter
      (fun t => decide (t.parentId = newParentId)) =
      (store.filter (fun u : Task =>
        decide (u.id ∈ spliced.map (fun v => v.id)))).map F := by
    rw [List.filter_eq_self]
    intro x hx
    obtain ⟨u, hu, rfl⟩ := List.mem_map.mp hx
    have humem := List.mem_of_mem_filter hu
    have hts := of_decide_eq_true ((List.mem_filter.mp hu).2)
    obtain ⟨s, hs, hsid⟩ := List.mem_map.mp hts
    have hsu : s = u := mem_unique_of_nodup_ids hnd humem (hsplstore s hs) hsid
    have huspl : u ∈ spliced := by
      rw [← hsu]
      exact hs
    obtain ⟨⟨i, hilt⟩, hget⟩ := List.mem_iff_get.mp huspl
    have henum : (i, u) ∈ spliced.enum := by
      rw [List.mk_mem_enum_iff_getElem?]
      exact List.getElem?_eq_some.mpr ⟨hilt, by rw [← hget]; rfl⟩
    rw [hFat i u henum]
    by_cases hud : u.id = draggedId
    · rw [if_pos hud]
      exact decide_eq_true rfl
    · rw [if_neg hud]
      have hune : u ∈ ltr := by
        rcases hsplmem u huspl with hud2 | hl
        · exact absurd (by rw [hud2]; exact hdid) hud
        · exact hl
      exact decide_eq_true (hltrmem u hune).2.1
  have hchsp : ((store.map F).filter
      (fun t => decide (t.parentId = newParentId))).Perm (spliced.map F) := by
    refine ((hS.symm.map F).filter
      (fun t => decide (t.parentId = newParentId))).trans ?_
    rw [List.map_append, List.filter_append, hznope, List.append_nil, hallP]
    exact hSperm.map F
  have hOrderOps : ∀ op ∈ (spliced.enum.filterMap (fun p =>
      if p.2.id = draggedId then
        if ¬ d.order = (p.1 : Int) then
          some (Operation.UPDATE p.2.id { order := some d.order }
                  { order := some (p.1 : Int) },
                StoreWrite.upd p.2.id { order := some (p.1 : Int) })
        else none
      else
        if ¬ p.2.order = (p.1 : Int) then
          some (Operation.UPDATE p.2.id { order := some p.2.order }
                  { order := some (p.1 : Int) },
                StoreWrite.upd p.2.id { order := some (p.1 : Int) })
        else none)).map Prod.fst,
      ∃ tid prev new, op = Operation.UPDATE tid prev new ∧ ¬ prev = new := by
    intro op hop
    obtain ⟨pr, hprmem, hpr⟩ := List.mem_map.mp hop
    obtain ⟨p, hpmem, hstep⟩ := List.mem_filterMap.mp hprmem
    by_cases h1 : p.2.id = draggedId
    · rw [if_pos h1] at hstep
      by_cases h2 : ¬ d.order = (p.1 : Int)
      · rw [if_pos h2] at hstep
        refine ⟨p.2.id, { order := some d.order },
          { order := some ((p.1 : Int)) }, ?_, ?_⟩
        · rw [← hpr, ← Option.some.inj hstep]
        · intro heq
          exact h2 (Option.some.inj (congrArg TaskPatch.order heq))
      · rw [if_neg h2] at hstep
        cases hstep
    · rw [if_neg h1] at hstep
      by_cases h2 : ¬ p.2.order = (p.1 : Int)
      · rw [if_pos h2] at hstep
        refine ⟨p.2.id, { order := some p.2.order },
          { order := some ((p.1 : Int)) }, ?_, ?_⟩
        · rw [← hpr, ← Option.some.inj hstep]
        · intro heq
          exact h2 (Option.some.inj (congrArg TaskPatch.order heq))
      · rw [if_neg h2] at hstep
        cases hstep
  refine ⟨?_, ?_, ?_, ?_, ?_⟩
  · rw [hstore, getTask_map_of_id_preserved store draggedId F hFid, hg,
      Option.map_some', hFat dropIndex d henumd, if_pos hdid]
  · rw [hstore]
    refine (hchsp.map (fun t => t.id)).trans ?_
    have hidsF : spliced.map ((fun t : Task => t.id) ∘ F) =
        spliced.map (fun t => t.id) :=
      List.map_congr_left (fun t _ => hFid t)
    rw [List.map_map, hidsF]
    refine (hsplperm.map (fun t => t.id)).trans ?_
    rw [List.map_cons, hdid]
    exact (hlp.map (fun t => t.id)).cons draggedId
  · rw [hstore]
    refine (hchsp.map (fun t => t.order)).trans ?_
    rw [List.map_map]
    have hordF : spliced.map ((fun t : Task => t.order) ∘ F) =
        (List.range spliced.length).map (fun i : Nat => ((i : Int))) := by
      apply List.ext_getElem
      · simp
      · intro i hi1 hi2
        have hilt : i < spliced.length := by simpa using hi1
        simp only [List.getElem_map, List.getElem_range]
        have henum : (i, spliced[i]) ∈ spliced.enum :=
          List.mk_mem_enum_iff_getElem?.mpr (List.getElem?_eq_some.mpr ⟨hilt, rfl⟩)
        show (F spliced[i]).order = ((i : Int))
        rw [hFat i (spliced[i]) henum]
        by_cases hud : (spliced[i]).id = draggedId
        · rw [if_pos hud]
        · rw [if_neg hud]
    rw [hordF, hsplen]
  · intro u hu hPu hud
    rw [hstore]
    have hnotin : u.id ∉ spliced.map (fun v : Task => v.id) := by
      intro hin
      obtain ⟨s, hs, hsid⟩ := List.mem_map.mp hin
      have hsu : s = u := mem_unique_of_nodup_ids hnd hu (hsplstore s hs) hsid
      rcases hsplmem s hs with hsd | hl
      · exact hud (by rw [← hsu, hsd, hdid])
      · exact hPu (by rw [← hsu]; exact (hltrmem s hl).2.1)
    have hmm := List.mem_map_of_mem F hu
    rwa [hFnone u hnotin] at hmm
  · simp only [actions.reorderSiblings, hg]
    rw [← hltr, ← hspl, apply_ite actions.ActResult.hist]
    by_cases hpar : ¬ d.parentId = newParentId
    · simp only [if_pos hpar]
      split
      · exact Or.inl rfl
      · next hne =>
        refine Or.inr ⟨_, ?_, rfl, ?_⟩
        · intro hnil
          rw [hnil] at hne
          exact hne rfl
        · intro op hop
          rcases List.mem_append.mp hop with hopp | hopo
          · have hope := List.mem_singleton.mp hopp
            refine ⟨draggedId, { parentId := some d.parentId },
              { parentId := some newParentId }, hope, ?_⟩
            intro heq
            exact hpar (Option.some.inj (congrArg TaskPatch.parentId heq))
          · exact hOrderOps op hopo
    · simp only [if_neg hpar, List.nil_append]
      split
      · exact Or.inl rfl
      · next hne =>
        refine Or.inr ⟨_, ?_, rfl, ?_⟩
        · intro hnil
          rw [hnil] at hne
          exact hne rfl
        · exact hOrderOps

/-- Concrete check of C7: store with tasks x (order 5) and y (order 9) under
root; dropping x at index 1 among the children of root gives x order 1, y
order 0. -/
theorem C7_witness :
    getTask (actions.reorderSiblings
        [sampleTask "x" "root" 5, sampleTask "y" "root" 9]
        ⟨[], []⟩ "x" "root" 1).store "x" =
      some { sampleTask "x" "root" 5 with
               parentId := "root", order := ((1 : Nat) : Int) } :=
  (C7_reorderSiblings_dense
    [sampleTask "x" "root" 5, sampleTask "y" "root" 9]
    ⟨[], []⟩ "x" "root" 1 (sampleTask "x" "root" 5)
    (by decide) (by decide) (by decide) (by decide)).1


/-- Preorder flattening as a flatMap over the top-level nodes. -/
theorem flattenForest_flatMap (l : List TreeNode) :
    flattenForest l = l.flatMap (fun n => n.task :: flattenForest n.children) := by
  induction l with
  | nil => simp [flattenForest]
  | cons n rest ih =>
    cases n with
    | mk tk c =>
      rw [List.flatMap_cons]
      simp only [flattenForest, TreeNode.task, TreeNode.children, ih,
        List.cons_append]

/-- Flattening a one-tree forest. -/
theorem flattenForest_singleton (n : TreeNode) :
    flattenForest [n] = n.task :: flattenForest n.children := by
  cases n with
  | mk tk c =>
    simp only [flattenForest, TreeNode.task, TreeNode.children, List.append_nil]

/-- Node collection as a flatMap over the top-level nodes. -/
theorem allNodes_flatMap (l : List TreeNode) :
    allNodes l = l.flatMap (fun n => n :: allNodes n.children) := by
  induction l with
  | nil => simp [allNodes]
  | cons n rest ih =>
    cases n with
    | mk tk c =>
      rw [List.flatMap_cons]
      simp only [allNodes, TreeNode.children, ih, List.cons_append]

/-- Node collection of a one-tree forest. -/
theorem allNodes_singleton (n : TreeNode) :
    allNodes [n] = n :: allNodes n.children := by
  cases n with
  | mk tk c =>
    simp only [allNodes, TreeNode.children, List.append_nil]

/-- A strict count inequality: a pointwise implication with one strict
witness makes `countP` strictly increase. -/
theorem countP_lt_of_mem_not {α : Type} (l : List α) (P Q : α → Bool)
    (hPQ : ∀ a ∈ l, P a = true → Q a = true) (x : α) (hx : x ∈ l)
    (hQx : Q x = true) (hPx : ¬ P x = true) :
    l.countP P < l.countP Q := by
  revert hPQ hx
  induction l with
  | nil =>
    intro hPQ hx
    cases hx
  | cons a l ih =>
    intro hPQ hx
    rw [List.countP_cons, List.countP_cons]
    rcases List.mem_cons.mp hx with rfl | hx2
    · have h1 : l.countP P ≤ l.countP Q :=
        List.countP_mono_left (fun b hb hP => hPQ b (List.mem_cons_of_mem _ hb) hP)
      rw [if_pos hQx, if_neg hPx]
      omega
    · have h2 := ih (fun b hb hP => hPQ b (List.mem_cons_of_mem _ hb) hP) hx2
      have h3 : (if P a = true then 1 else 0) ≤ (if Q a = true then 1 else 0) := by
        by_cases hPa : P a = true
        · rw [if_pos hPa, if_pos (hPQ a (List.mem_cons_self _ _) hPa)]
        · rw [if_neg hPa]
          exact Nat.zero_le _
      omega

/-- Hoisting never changes the id. -/
theorem hoist_id (mids : List String) (t : Task) : (hoist mids t).id = t.id := by
  unfold hoist
  split
  · rfl
  · rfl

/-- A task whose parent is a match is kept unchanged. -/
theorem hoist_of_contains (mids : List String) (t : Task)
    (h : mids.contains t.parentId = true) : hoist mids t = t := by
  unfold hoist
  rw [if_pos h]

/-- A task whose parent is not a match is re-parented to the root. -/
theorem hoist_of_not_contains (mids : List String) (t : Task)
    (h : ¬ mids.contains t.parentId = true) :
    hoist mids t = { t with parentId := "root" } := by
  unfold hoist
  rw [if_neg h]

/-- With unique ids, the membership filter of `keptTasks` coincides with the
match predicate itself. -/
theorem keptTasks_eq (tasks : List Task) (f : Task → Bool)
    (hnd : (tasks.map (fun u => u.id)).Nodup) :
    keptTasks tasks f = (tasks.filter f).map (hoist (matchingIds tasks f)) := by
  unfold keptTasks
  congr 1
  apply List.filter_congr
  intro t ht
  by_cases hft : f t = true
  · rw [hft]
    have hmem : t.id ∈ matchingIds tasks f :=
      List.mem_map_of_mem _ (List.mem_filter.mpr ⟨ht, hft⟩)
    simpa using hmem
  · rw [show f t = false from Bool.eq_false_iff.mpr hft]
    rw [Bool.eq_false_iff]
    intro hcon
    have hmem : t.id ∈ matchingIds tasks f := by simpa using hcon
    obtain ⟨s, hsf, hsid⟩ := List.mem_map.mp hmem
    have hst : s = t := mem_unique_of_nodup_ids hnd ht
      (List.mem_of_mem_filter hsf) hsid
    exact hft (by rw [← hst]; exact List.of_mem_filter hsf)

/-- The ids of the kept tasks are exactly the matching ids. -/
theorem keptTasks_ids (tasks : List Task) (f : Task → Bool)
    (hnd : (tasks.map (fun u => u.id)).Nodup) :
    (keptTasks tasks f).map (fun t => t.id) = matchingIds tasks f := by
  rw [keptTasks_eq tasks f hnd, List.map_map]
  unfold matchingIds
  apply List.map_congr_left
  intro t ht
  exact hoist_id _ t

/-- A rank function of the whole store also ranks the hoisted working set. -/
theorem kept_rank (tasks : List Task) (f : Task → Bool) (rk : String → Nat)
    (hrk : HasRank tasks rk) :
    ∀ u ∈ keptTasks tasks f, rk "root" < rk u.id ∧ rk u.parentId < rk u.id := by
  intro u hu
  unfold keptTasks at hu
  obtain ⟨t, htf, rfl⟩ := List.mem_map.mp hu
  have htt := List.mem_of_mem_filter htf
  obtain ⟨hroot, hpar⟩ := hrk t htt
  unfold hoist
  split
  · exact ⟨hroot, hpar⟩
  · exact ⟨hroot, hroot⟩

/-- Membership in the child working set of a parent id. -/
theorem mem_childNodeTasks (kept : List Task) (pid : String) (u : Task) :
    u ∈ childNodeTasks kept pid ↔
      u ∈ kept ∧ u.parentId = pid ∧ ¬ isRootNode kept u = true := by
  unfold childNodeTasks
  rw [List.mem_filter]
  constructor
  · rintro ⟨h1, h2⟩
    have h3 := of_decide_eq_true h2
    exact ⟨h1, h3.1, by simpa using h3.2⟩
  · rintro ⟨h1, h2, h3⟩
    exact ⟨h1, decide_eq_true ⟨h2, by simpa using h3⟩⟩

/-- The task stored at a built node is the task it was built from. -/
theorem buildNode_task (kept : List Task) (fuel : Nat) (t : Task) :
    (buildNode kept fuel t).task = t := by
  cases fuel
  · rfl
  · rfl

/-- Everything in a built subtree is the seed task or a member of the working
set. -/
theorem flatten_buildNode_subset (kept : List Task) :
    ∀ (fuel : Nat) (t u : Task), u ∈ flattenForest [buildNode kept fuel t] →
      u = t ∨ u ∈ kept := by
  intro fuel
  induction fuel with
  | zero =>
    intro t u hu
    left
    simpa [buildNode, flattenForest] using hu
  | succ g ih =>
    intro t u hu
    rw [flattenForest_singleton, buildNode_task] at hu
    rcases List.mem_cons.mp hu with h1 | h2
    · exact Or.inl h1
    · right
      have hch : (buildNode kept (g + 1) t).children = List.insertionSort
          (fun a b => a.task.order ≤ b.task.order)
          ((childNodeTasks kept t.id).map (buildNode kept g)) := rfl
      rw [hch, flattenForest_flatMap] at h2
      obtain ⟨n, hn, hun⟩ := List.mem_flatMap.mp h2
      have hn2 : n ∈ (childNodeTasks kept t.id).map (buildNode kept g) :=
        (List.perm_insertionSort _ _).mem_iff.mp hn
      obtain ⟨c, hc, rfl⟩ := List.mem_map.mp hn2
      rw [← flattenForest_singleton] at hun
      rcases ih c u hun with rfl | hk
      · exact ((mem_childNodeTasks kept t.id u).mp hc).1
      · exact hk

/-- Going down a chain of length `k`, a fuel budget of at least `k` reaches
the chain's end: its task appears in the flattened subtree of the chain's
start. -/
theorem flatten_buildNode_chain (kept : List Task) (r u : Task) (k : Nat)
    (hch : DownChain kept r u k) :
    ∀ fuel, k ≤ fuel → u ∈ flattenForest [buildNode kept fuel r] := by
  induction hch with
  | zero v =>
    intro fuel hf
    rw [flattenForest_singleton, buildNode_task]
    exact List.mem_cons_self _ _
  | @cons r c u k hc hch2 ih =>
    intro fuel hf
    cases fuel with
    | zero => exact absurd hf (by omega)
    | succ g =>
      rw [flattenForest_singleton]
      apply List.mem_cons_of_mem
      have hchld : (buildNode kept (g + 1) r).children = List.insertionSort
          (fun a b => a.task.order ≤ b.task.order)
          ((childNodeTasks kept r.id).map (buildNode kept g)) := rfl
      rw [hchld, flattenForest_flatMap]
      refine List.mem_flatMap.mpr ⟨buildNode kept g c, ?_, ?_⟩
      · exact (List.perm_insertionSort _ _).mem_iff.mpr (List.mem_map_of_mem _ hc)
      · show u ∈ (buildNode kept g c).task :: flattenForest
            (buildNode kept g c).children
        rw [← flattenForest_singleton]
        exact ih g (Nat.le_of_succ_le_succ hf)

/-- Going down a chain of length `k` with fuel at least `k` places the node of
the chain's endpoint, built with the remaining fuel, among the nodes of the
subtree of the chain's start. -/
theorem allNodes_buildNode_chain (kept : List Task) (r u : Task) (k : Nat)
    (hch : DownChain kept r u k) :
    ∀ fuel, k ≤ fuel →
      buildNode kept (fuel - k) u ∈ allNodes [buildNode kept fuel r] := by
  induction hch with
  | zero v =>
    intro fuel hf
    rw [Nat.sub_zero, allNodes_singleton]
    exact List.mem_cons_self _ _
  | @cons r c u k hc hch2 ih =>
    intro fuel hf
    cases fuel with
    | zero => exact absurd hf (by omega)
    | succ g =>
      rw [allNodes_singleton]
      apply List.mem_cons_of_mem
      have hchld : (buildNode kept (g + 1) r).children = List.insertionSort
          (fun a b => a.task.order ≤ b.task.order)
          ((childNodeTasks kept r.id).map (buildNode kept g)) := rfl
      rw [hchld, allNodes_flatMap, Nat.succ_sub_succ]
      refine List.mem_flatMap.mpr ⟨buildNode kept g c, ?_, ?_⟩
      · exact (List.perm_insertionSort _ _).mem_iff.mpr (List.mem_map_of_mem _ hc)
      · rw [← allNodes_singleton]
        exact ih g (Nat.le_of_succ_le_succ hf)

/-- A chain may be extended at its bottom end by one more child step. -/
theorem downChain_snoc {kept : List Task} {r v u : Task} {k : Nat}
    (hch : DownChain kept r v k) (hu : u ∈ childNodeTasks kept v.id) :
    DownChain kept r u (k + 1) := by
  revert hu
  induction hch with
  | zero w =>
    intro hu
    exact DownChain.cons hu (DownChain.zero u)
  | @cons r c v k hc hch2 ih =>
    intro hu
    exact DownChain.cons hc (ih hu)

/-- Every member of an acyclic working set is reached by a chain from some
root of the working set, of length at most the number of strictly lower-rank
members. -/
theorem downChain_exists (kept : List Task) (rk : String → Nat)
    (hRk : ∀ u ∈ kept, rk "root" < rk u.id ∧ rk u.parentId < rk u.id) :
    ∀ u ∈ kept, ∃ r k, r ∈ kept ∧ isRootNode kept r = true ∧
      DownChain kept r u k ∧
      k ≤ kept.countP (fun w => decide (rk w.id < rk u.id)) := by
  have main : ∀ n : Nat, ∀ u ∈ kept, rk u.id = n →
      ∃ r k, r ∈ kept ∧ isRootNode kept r = true ∧ DownChain kept r u k ∧
        k ≤ kept.countP (fun w => decide (rk w.id < rk u.id)) := by
    intro n
    induction n using Nat.strong_induction_on with
    | _ n ih =>
      intro u hu hn
      by_cases hroot : isRootNode kept u = true
      · exact ⟨u, 0, hu, hroot, DownChain.zero u, Nat.zero_le _⟩
      · have hsplit : ¬ u.parentId = "root" ∧
            u.parentId ∈ kept.map (fun w => w.id) := by
          unfold isRootNode at hroot
          simpa [not_or] using hroot
        obtain ⟨p, hp, hpid2⟩ := List.mem_map.mp hsplit.2
        have hplt : rk p.id < rk u.id := by
          rw [hpid2]
          exact (hRk u hu).2
        obtain ⟨r, k, hr, hrr, hchn, hk⟩ :=
          ih (rk p.id) (by rw [← hn]; exact hplt) p hp rfl
        refine ⟨r, k + 1, hr, hrr, ?_, ?_⟩
        · refine downChain_snoc hchn ((mem_childNodeTasks kept p.id u).mpr
            ⟨hu, by rw [hpid2], hroot⟩)
        · have hlt : kept.countP (fun w => decide (rk w.id < rk p.id)) <
              kept.countP (fun w => decide (rk w.id < rk u.id)) := by
            refine countP_lt_of_mem_not kept _ _ ?_ p hp ?_ ?_
            · intro a ha hPa
              have := of_decide_eq_true hPa
              exact decide_eq_true (lt_trans this hplt)
            · exact decide_eq_true hplt
            · simp
          omega
  intro u hu
  exact main (rk u.id) u hu rfl


/-- C3 (amended): for a store with unique ids whose parent links are acyclic
(witnessed by a rank function), the strict-match builder is exact: the
flattened forest holds exactly the kept (hoisted) working set, whose ids are
exactly the matching ids, so no non-matching task ever appears; a matching
task whose parent does not match appears re-parented to the synthetic root as
the task of a forest node; and a matching task whose parent also matches
appears as a child of that parent's node.  Without acyclicity the claim is
false: on a cyclic store the builder returns an empty forest. -/
theorem C3_strict_match_builder (tasks : List Task) (f : Task → Bool)
    (rk : String → Nat)
    (hnd : (tasks.map (fun u => u.id)).Nodup)
    (hrk : HasRank tasks rk) :
    (∀ u : Task, u ∈ flattenForest (buildStrictTreeFromMatch tasks f) ↔
      u ∈ keptTasks tasks f) ∧
    ((keptTasks tasks f).map (fun t => t.id) = matchingIds tasks f) ∧
    (∀ t ∈ tasks, f t = true →
      ¬ (matchingIds tasks f).contains t.parentId = true →
      ∃ n ∈ buildStrictTreeFromMatch tasks f,
        n.task = { t with parentId := "root" }) ∧
    (∀ t ∈ tasks, ∀ p ∈ tasks, f t = true → f p = true → p.id = t.parentId →
      ∃ pn ∈ allNodes (buildStrictTreeFromMatch tasks f), pn.task.id = p.id ∧
        ∃ cn ∈ pn.children, cn.task.id = t.id) := by
  have hKeq : keptTasks tasks f =
      (tasks.filter f).map (hoist (matchingIds tasks f)) :=
    keptTasks_eq tasks f hnd
  have hkRk : ∀ u ∈ keptTasks tasks f,
      rk "root" < rk u.id ∧ rk u.parentId < rk u.id := kept_rank tasks f rk hrk
  have hbuild : buildStrictTreeFromMatch tasks f =
      List.insertionSort (fun a b => a.task.sectionOrder ≤ b.task.sectionOrder)
        (((keptTasks tasks f).filter (isRootNode (keptTasks tasks f))).map
          (buildNode (keptTasks tasks f) (keptTasks tasks f).length)) := rfl
  have hc1 : ∀ u : Task, u ∈ flattenForest (buildStrictTreeFromMatch tasks f) ↔
      u ∈ keptTasks tasks f := by
    intro u
    constructor
    · intro hu
      rw [hbuild, flattenForest_flatMap] at hu
      obtain ⟨n, hn, hun⟩ := List.mem_flatMap.mp hu
      have hn2 := (List.perm_insertionSort _ _).mem_iff.mp hn
      obtain ⟨r, hr, rfl⟩ := List.mem_map.mp hn2
      rw [← flattenForest_singleton] at hun
      rcases flatten_buildNode_subset (keptTasks tasks f)
          (keptTasks tasks f).length r u hun with rfl | hk
      · exact List.mem_of_mem_filter hr
      · exact hk
    · intro hu
      obtain ⟨r, k, hrm, hrr, hchn, hk⟩ :=
        downChain_exists (keptTasks tasks f) rk hkRk u hu
      have hkle : k ≤ (keptTasks tasks f).length :=
        le_trans hk (List.countP_le_length _)
      have humem := flatten_buildNode_chain (keptTasks tasks f) r u k hchn
        (keptTasks tasks f).length hkle
      rw [hbuild, flattenForest_flatMap]
      refine List.mem_flatMap.mpr
        ⟨buildNode (keptTasks tasks f) (keptTasks tasks f).length r, ?_, ?_⟩
      · refine (List.perm_insertionSort _ _).mem_iff.mpr ?_
        exact List.mem_map_of_mem _ (List.mem_filter.mpr ⟨hrm, hrr⟩)
      · show u ∈ (buildNode (keptTasks tasks f)
            (keptTasks tasks f).length r).task :: flattenForest
            (buildNode (keptTasks tasks f) (keptTasks tasks f).length r).children
        rw [← flattenForest_singleton]
        exact humem
  have hc3 : ∀ t ∈ tasks, f t = true →
      ¬ (matchingIds tasks f).contains t.parentId = true →
      ∃ n ∈ buildStrictTreeFromMatch tasks f,
        n.task = { t with parentId := "root" } := by
    intro t ht hft hnc
    have htk : hoist (matchingIds tasks f) t ∈ keptTasks tasks f := by
      rw [hKeq]
      exact List.mem_map_of_mem _ (List.mem_filter.mpr ⟨ht, hft⟩)
    have hhoist : hoist (matchingIds tasks f) t = { t with parentId := "root" } :=
      hoist_of_not_contains _ t hnc
    have hroot : isRootNode (keptTasks tasks f)
        (hoist (matchingIds tasks f) t) = true := by
      rw [hhoist]
      unfold isRootNode
      simp
    have hmem : buildNode (keptTasks tasks f) (keptTasks tasks f).length
        (hoist (matchingIds tasks f) t) ∈ buildStrictTreeFromMatch tasks f := by
      rw [hbuild]
      refine (List.perm_insertionSort _ _).mem_iff.mpr ?_
      exact List.mem_map_of_mem _ (List.mem_filter.mpr ⟨htk, hroot⟩)
    exact ⟨_, hmem, by rw [buildNode_task, hhoist]⟩
  have hc4 : ∀ t ∈ tasks, ∀ p ∈ tasks, f t = true → f p = true →
      p.id = t.parentId →
      ∃ pn ∈ allNodes (buildStrictTreeFromMatch tasks f), pn.task.id = p.id ∧
        ∃ cn ∈ pn.children, cn.task.id = t.id := by
    intro t ht p hp hft hfp hpid
    have hpilm : p.id ∈ matchingIds tasks f :=
      List.mem_map_of_mem _ (List.mem_filter.mpr ⟨hp, hfp⟩)
    have hcont : (matchingIds tasks f).contains t.parentId = true := by
      rw [← hpid]
      simpa using hpilm
    have htk : t ∈ keptTasks tasks f := by
      have h1 : hoist (matchingIds tasks f) t ∈ keptTasks tasks f := by
        rw [hKeq]
        exact List.mem_map_of_mem _ (List.mem_filter.mpr ⟨ht, hft⟩)
      rwa [hoist_of_contains _ t hcont] at h1
    have hpk : hoist (matchingIds tasks f) p ∈ keptTasks tasks f := by
      rw [hKeq]
      exact List.mem_map_of_mem _ (List.mem_filter.mpr ⟨hp, hfp⟩)
    have hpne : ¬ p.id = "root" := by
      intro hcon
      have h1 := (hrk p hp).1
      rw [hcon] at h1
      exact Nat.lt_irrefl _ h1
    have hpidk : p.id ∈ (keptTasks tasks f).map (fun w => w.id) :=
      List.mem_map.mpr ⟨hoist (matchingIds tasks f) p, hpk, hoist_id _ p⟩
    have htnr : ¬ isRootNode (keptTasks tasks f) t = true := by
      intro hcon
      unfold isRootNode at hcon
      rcases of_decide_eq_true hcon with h1 | h2
      · exact hpne (by rw [hpid, h1])
      · refine h2 ?_
        rw [← hpid]
        simpa using hpidk
    have htch : t ∈ childNodeTasks (keptTasks tasks f) p.id :=
      (mem_childNodeTasks _ _ _).mpr ⟨htk, hpid.symm, htnr⟩
    obtain ⟨r, k, hrm, hrr, hchn, hk⟩ :=
      downChain_exists (keptTasks tasks f) rk hkRk
        (hoist (matchingIds tasks f) p) hpk
    have hklt : k < (keptTasks tasks f).length := by
      have h1 : (keptTasks tasks f).countP
          (fun w => decide (rk w.id <
            rk (hoist (matchingIds tasks f) p).id)) <
          (keptTasks tasks f).countP (fun _ => true) := by
        refine countP_lt_of_mem_not _ _ _ (fun a ha h2 => rfl)
          (hoist (matchingIds tasks f) p) hpk rfl ?_
        simp
      have h2 : (keptTasks tasks f).countP (fun _ => true) =
          (keptTasks tasks f).length := by simp
      omega
    have hnode := allNodes_buildNode_chain (keptTasks tasks f) r
      (hoist (matchingIds tasks f) p) k hchn (keptTasks tasks f).length
      (le_of_lt hklt)
    obtain ⟨g, hg⟩ : ∃ g, (keptTasks tasks f).length - k = g + 1 :=
      ⟨(keptTasks tasks f).length - k - 1, by omega⟩
    rw [hg] at hnode
    have hpn : buildNode (keptTasks tasks f) (g + 1)
        (hoist (matchingIds tasks f) p) ∈
        allNodes (buildStrictTreeFromMatch tasks f) := by
      rw [hbuild, allNodes_flatMap]
      refine List.mem_flatMap.mpr
        ⟨buildNode (keptTasks tasks f) (keptTasks tasks f).length r, ?_, ?_⟩
      · refine (List.perm_insertionSort _ _).mem_iff.mpr ?_
        exact List.mem_map_of_mem _ (List.mem_filter.mpr ⟨hrm, hrr⟩)
      · rw [← allNodes_singleton]
        exact hnode
    have hcn : buildNode (keptTasks tasks f) g t ∈
        (buildNode (keptTasks tasks f) (g + 1)
          (hoist (matchingIds tasks f) p)).children := by
      have hchld : (buildNode (keptTasks tasks f) (g + 1)
          (hoist (matchingIds tasks f) p)).children = List.insertionSort
          (fun a b => a.task.order ≤ b.task.order)
          ((childNodeTasks (keptTasks tasks f)
            (hoist (matchingIds tasks f) p).id).map
            (buildNode (keptTasks tasks f) g)) := rfl
      rw [hchld]
      refine (List.perm_insertionSort _ _).mem_iff.mpr ?_
      refine List.mem_map_of_mem _ ?_
      rw [hoist_id]
      exact htch
    refine ⟨_, hpn, ?_, _, hcn, ?_⟩
    · rw [buildNode_task, hoist_id]
    · rw [buildNode_task]
  exact ⟨hc1, keptTasks_ids tasks f hnd, hc3, hc4⟩

/-- C3 counterexample: on the two-task store whose parent links form a cycle
(task a's parent is b, task b's parent is a) with the all-true match
predicate, every task matches and every task's parent is a present match, yet
the strict-match builder returns the empty forest: neither matching task
appears anywhere in the tree, contradicting the claim as stated for every
task list. -/
theorem C3_counterexample_cycle :
    ((fun _ : Task => true) (sampleTask "a" "b" 1) = true) ∧
    (sampleTask "b" "a" 1).id = (sampleTask "a" "b" 1).parentId ∧
    buildStrictTreeFromMatch [sampleTask "a" "b" 1, sampleTask "b" "a" 1]
      (fun _ => true) = [] :=
  ⟨rfl, rfl, rfl⟩

/-- Concrete check of C3 on the A/B/C store (A under root, B under A, C under
B) with the predicate matching everything but B. -/
theorem C3_witness :
    (([sampleTask "A" "root" 1, sampleTask "B" "A" 1,
        sampleTask "C" "B" 1].map (fun u => u.id)).Nodup ∧
      HasRank [sampleTask "A" "root" 1, sampleTask "B" "A" 1,
          sampleTask "C" "B" 1]
        (fun s => if s = "root" then 0 else if s = "A" then 1 else
          if s = "B" then 2 else 3)) ∧
    (∀ u : Task,
      u ∈ flattenForest (buildStrictTreeFromMatch
        [sampleTask "A" "root" 1, sampleTask "B" "A" 1, sampleTask "C" "B" 1]
        (fun t => decide (¬ t.id = "B"))) ↔
      u ∈ keptTasks
        [sampleTask "A" "root" 1, sampleTask "B" "A" 1, sampleTask "C" "B" 1]
        (fun t => decide (¬ t.id = "B"))) :=
  ⟨⟨by decide, by unfold HasRank; decide⟩,
    (C3_strict_match_builder
      [sampleTask "A" "root" 1, sampleTask "B" "A" 1, sampleTask "C" "B" 1]
      (fun t => decide (¬ t.id = "B"))
      (fun s => if s = "root" then 0 else if s = "A" then 1 else
        if s = "B" then 2 else 3)
      (by decide) (by unfold HasRank; decide)).1⟩


/-- Exactness of a sorted roots-and-fuel forest over an acyclic working set:
its flattening holds exactly the working set's members. -/
theorem flatten_sorted_roots_iff (kept : List Task) (rk : String → Nat)
    (hRk : ∀ u ∈ kept, rk "root" < rk u.id ∧ rk u.parentId < rk u.id)
    (r : TreeNode → TreeNode → Prop) [DecidableRel r] :
    ∀ u : Task, u ∈ flattenForest (List.insertionSort r
        ((kept.filter (isRootNode kept)).map (buildNode kept kept.length))) ↔
      u ∈ kept := by
  intro u
  constructor
  · intro hu
    rw [flattenForest_flatMap] at hu
    obtain ⟨n, hn, hun⟩ := List.mem_flatMap.mp hu
    have hn2 := (List.perm_insertionSort _ _).mem_iff.mp hn
    obtain ⟨rt, hrt, rfl⟩ := List.mem_map.mp hn2
    rw [← flattenForest_singleton] at hun
    rcases flatten_buildNode_subset kept kept.length rt u hun with rfl | hk
    · exact List.mem_of_mem_filter hrt
    · exact hk
  · intro hu
    obtain ⟨rt, k, hrm, hrr, hchn, hk⟩ := downChain_exists kept rk hRk u hu
    have hkle : k ≤ kept.length := le_trans hk (List.countP_le_length _)
    have humem := flatten_buildNode_chain kept rt u k hchn kept.length hkle
    rw [flattenForest_flatMap]
    refine List.mem_flatMap.mpr ⟨buildNode kept kept.length rt, ?_, ?_⟩
    · refine (List.perm_insertionSort _ _).mem_iff.mpr ?_
      exact List.mem_map_of_mem _ (List.mem_filter.mpr ⟨hrm, hrr⟩)
    · show u ∈ (buildNode kept kept.length rt).task ::
        flattenForest (buildNode kept kept.length rt).children
      rw [← flattenForest_singleton]
      exact humem

/-- Calendar order on local dates is irreflexive. -/
theorem LocalDate_ltb_irrefl (a : LocalDate) : ¬ LocalDate.ltb a a = true := by
  intro h
  have g := of_decide_eq_true h
  omega

/-- Calendar order on local dates is asymmetric. -/
theorem LocalDate_ltb_asymm {a b : LocalDate} (h1 : LocalDate.ltb a b = true)
    (h2 : LocalDate.ltb b a = true) : False := by
  have g1 := of_decide_eq_true h1
  have g2 := of_decide_eq_true h2
  omega

/-- An instant cannot lie both before the start and after the end of the same
day. -/
theorem before_start_after_end_exclusive (d now : Instant)
    (h1 : isBefore d (startOfDay now) = true)
    (h2 : isAfter d (endOfDay now) = true) : False := by
  unfold isBefore startOfDay at h1
  unfold isAfter endOfDay at h2
  unfold Instant.ltb at h1 h2
  have g1 := of_decide_eq_true h1
  have g2 := of_decide_eq_true h2
  rcases g1 with c1 | c2
  · rcases g2 with c3 | c4
    · exact LocalDate_ltb_asymm c1 c3
    · rw [show now.date = d.date from c4.1] at c1
      exact LocalDate_ltb_irrefl _ c1
  · have hx := c2.2
    simp at hx


/-- C5 (amended): in the inbox view (no search, no focus) with unique ids and
acyclic parent links, the three dated buckets are exact — a task id appears in
the flattened `past` (resp. `today`, `upcoming`) forest exactly when the task
has a truthy dueDate parsing, as a local date, before today's start (resp.
within [today start, today end], after today's end) — and every task with a
truthy dueDate satisfies exactly one of the three date predicates (so a task
with dueDate "2024-01-15" is in `today` at local midnight Jan 15 2024);
however the fourth bucket (labelled "No Date / All") is NOT the complement: it
is assigned the standard full tree, so it contains every task, dated or not,
and the four buckets do not partition the task set. -/
theorem C5_inbox_buckets (tasks : List Task) (now : Instant)
    (rk : String → Nat)
    (hnd : (tasks.map (fun u => u.id)).Nodup)
    (hrk : HasRank tasks rk) :
    (∀ x : String,
      (∃ u ∈ flattenForest (inboxGroups tasks now).past, u.id = x) ↔
        x ∈ matchingIds tasks (isPastPred now)) ∧
    (∀ x : String,
      (∃ u ∈ flattenForest (inboxGroups tasks now).today, u.id = x) ↔
        x ∈ matchingIds tasks (isTodayPred now)) ∧
    (∀ x : String,
      (∃ u ∈ flattenForest (inboxGroups tasks now).upcoming, u.id = x) ↔
        x ∈ matchingIds tasks (isUpcomingPred now)) ∧
    (∀ t : Task, actions.optStrTruthy t.dueDate = true →
      (isPastPred now t = true ∨ isTodayPred now t = true ∨
        isUpcomingPred now t = true) ∧
      ¬ (isPastPred now t = true ∧ isTodayPred now t = true) ∧
      ¬ (isPastPred now t = true ∧ isUpcomingPred now t = true) ∧
      ¬ (isTodayPred now t = true ∧ isUpcomingPred now t = true)) ∧
    (∀ u : Task, u ∈ flattenForest (inboxGroups tasks now).nodate ↔
      u ∈ tasks) := by
  have hbkt : ∀ p : Task → Bool, ∀ x : String,
      (∃ u ∈ flattenForest (buildStrictTreeFromMatch tasks p), u.id = x) ↔
        x ∈ matchingIds tasks p := by
    intro p x
    have hb : buildStrictTreeFromMatch tasks p = List.insertionSort
        (fun a b => a.task.sectionOrder ≤ b.task.sectionOrder)
        (((keptTasks tasks p).filter (isRootNode (keptTasks tasks p))).map
          (buildNode (keptTasks tasks p) (keptTasks tasks p).length)) := rfl
    have hiff := flatten_sorted_roots_iff (keptTasks tasks p) rk
      (kept_rank tasks p rk hrk)
      (fun a b : TreeNode => a.task.sectionOrder ≤ b.task.sectionOrder)
    rw [hb]
    constructor
    · rintro ⟨u, hu, rfl⟩
      rw [← keptTasks_ids tasks p hnd]
      exact List.mem_map_of_mem _ ((hiff u).mp hu)
    · intro hx
      rw [← keptTasks_ids tasks p hnd] at hx
      obtain ⟨u, hu, huid⟩ := List.mem_map.mp hx
      exact ⟨u, (hiff u).mpr hu, huid⟩
  have htri : ∀ t : Task, actions.optStrTruthy t.dueDate = true →
      (isPastPred now t = true ∨ isTodayPred now t = true ∨
        isUpcomingPred now t = true) ∧
      ¬ (isPastPred now t = true ∧ isTodayPred now t = true) ∧
      ¬ (isPastPred now t = true ∧ isUpcomingPred now t = true) ∧
      ¬ (isTodayPred now t = true ∧ isUpcomingPred now t = true) := by
    intro t hdt
    cases hdd : t.dueDate with
    | none =>
      rw [hdd] at hdt
      simp [actions.optStrTruthy] at hdt
    | some d =>
      have hdne : ¬ d = "" := by
        rw [hdd] at hdt
        simpa [actions.optStrTruthy] using hdt
      have hP : isPastPred now t =
          isBefore (parseLocal d) (startOfDay now) := by
        unfold isPastPred
        simp only [hdd]
        rw [if_neg hdne]
      have hT : isTodayPred now t = decide
          (¬ isBefore (parseLocal d) (startOfDay now) = true ∧
            ¬ isAfter (parseLocal d) (endOfDay now) = true) := by
        unfold isTodayPred
        simp only [hdd]
        rw [if_neg hdne]
      have hU : isUpcomingPred now t =
          isAfter (parseLocal d) (endOfDay now) := by
        unfold isUpcomingPred
        simp only [hdd]
        rw [if_neg hdne]
      rw [hP, hT, hU]
      by_cases b1 : isBefore (parseLocal d) (startOfDay now) = true
      · refine ⟨Or.inl b1, ?_, ?_, ?_⟩
        · rintro ⟨-, h2⟩
          exact (of_decide_eq_true h2).1 b1
        · rintro ⟨-, h2⟩
          exact before_start_after_end_exclusive _ _ b1 h2
        · rintro ⟨h1, h2⟩
          exact (of_decide_eq_true h1).2 h2
      · by_cases b2 : isAfter (parseLocal d) (endOfDay now) = true
        · refine ⟨Or.inr (Or.inr b2), ?_, ?_, ?_⟩
          · rintro ⟨h1, -⟩
            exact b1 h1
          · rintro ⟨h1, -⟩
            exact b1 h1
          · rintro ⟨h1, -⟩
            exact (of_decide_eq_true h1).2 b2
        · refine ⟨Or.inr (Or.inl (decide_eq_true ⟨b1, b2⟩)), ?_, ?_, ?_⟩
          · rintro ⟨h1, -⟩
            exact b1 h1
          · rintro ⟨h1, -⟩
            exact b1 h1
          · rintro ⟨-, h2⟩
            exact b2 h2
  have hfull : ∀ u : Task,
      u ∈ flattenForest (inboxGroups tasks now).nodate ↔ u ∈ tasks := by
    have hb : (inboxGroups tasks now).nodate = List.insertionSort
        (fun a b => a.task.order ≤ b.task.order)
        ((tasks.filter (isRootNode tasks)).map
          (buildNode tasks tasks.length)) := rfl
    intro u
    rw [hb]
    exact flatten_sorted_roots_iff tasks rk hrk
      (fun a b : TreeNode => a.task.order ≤ b.task.order) u
  exact ⟨hbkt (isPastPred now), hbkt (isTodayPred now),
    hbkt (isUpcomingPred now), htri, hfull⟩

/-- C5 counterexample: a task with the (truthy) dueDate "2020-01-01", viewed
at local noon Jan 15 2024, appears both in the `past` bucket and in the
fourth bucket — the latter is the full tree of all tasks (labelled
"No Date / All"), not the dueDate-less complement — so the buckets do not
partition the tasks and a dated task sits in the "no date" group. -/
theorem C5_counterexample_dated_in_nodate :
    actions.optStrTruthy (some "2020-01-01") = true ∧
    (inboxGroups [{ sampleTask "d" "root" 1 with dueDate := some "2020-01-01" }]
        ⟨⟨2024, 0, 15⟩, 43200000⟩).past =
      [TreeNode.mk { sampleTask "d" "root" 1 with dueDate := some "2020-01-01" }
        []] ∧
    (inboxGroups [{ sampleTask "d" "root" 1 with dueDate := some "2020-01-01" }]
        ⟨⟨2024, 0, 15⟩, 43200000⟩).nodate =
      [TreeNode.mk { sampleTask "d" "root" 1 with dueDate := some "2020-01-01" }
        []] :=
  ⟨rfl, rfl, rfl⟩

/-- Concrete check of C5: a task due "2024-01-15", viewed at local midnight
Jan 15 2024, lands in the `today` bucket. -/
theorem C5_witness :
    (([{ sampleTask "d" "root" 1 with dueDate := some "2024-01-15" }].map
        (fun u => u.id)).Nodup ∧
      HasRank [{ sampleTask "d" "root" 1 with dueDate := some "2024-01-15" }]
        (fun s => if s = "root" then 0 else 1)) ∧
    (∃ u ∈ flattenForest ((inboxGroups
        [{ sampleTask "d" "root" 1 with dueDate := some "2024-01-15" }]
        ⟨⟨2024, 0, 15⟩, 0⟩).today), u.id = "d") :=
  ⟨⟨by decide, by unfold HasRank; decide⟩,
    ((C5_inbox_buckets
      [{ sampleTask "d" "root" 1 with dueDate := some "2024-01-15" }]
      ⟨⟨2024, 0, 15⟩, 0⟩ (fun s => if s = "root" then 0 else 1)
      (by decide) (by unfold HasRank; decide)).2.1 "d").mpr (by decide)⟩


end Todo
